import Mathlib

/-!
Verification of the CRS acquisition pipeline of `citkid/crs/instrument.py`.

The embedding works over exact rationals: tone frequencies and amplitudes
(floats in the source) become `ℚ`, complex transmission samples become pairs
of rationals (`Cq`).  Hardware effects (RPC commands, the external capture
process) are modelled as an explicit command trace (`Cmd`), warnings as a
list (`Warn`), and Python exceptions as `Except` results (`Err`).  Sample
data read back from the device or from the parser's on-disk output is
supplied by oracle parameters, since it originates outside the program.
-/

namespace Citkid

/-- Complex numbers with rational components, standing for the complex
samples (numpy complex) of the source. -/
structure Cq where
  re : ℚ
  im : ℚ
deriving DecidableEq, Repr

def Cq.zero : Cq := ⟨0, 0⟩

def Cq.add (z w : Cq) : Cq := ⟨z.re + w.re, z.im + w.im⟩

def Cq.mul (z w : Cq) : Cq :=
  ⟨z.re * w.re - z.im * w.im, z.re * w.im + z.im * w.re⟩

def Cq.normSq (z : Cq) : ℚ := z.re * z.re + z.im * z.im

/-- Complex division `z / w`, exact over ℚ (0 when `w = 0`, as in `0/0 = 0`). -/
def Cq.div (z w : Cq) : Cq :=
  ⟨(z.re * w.re + z.im * w.im) / w.normSq, (z.im * w.re - z.re * w.im) / w.normSq⟩

/-- Scalar rescaling of a complex sample (`z * c` for a real scalar `c`). -/
def Cq.smul (c : ℚ) (z : Cq) : Cq := ⟨c * z.re, c * z.im⟩

/-- Mean of a list of complex samples (`np.mean`); 0 for the empty list. -/
def cqMean (l : List Cq) : Cq :=
  ⟨((l.map Cq.re).sum) / l.length, ((l.map Cq.im).sum) / l.length⟩

/-- `a % b` with numpy's floored semantics for a positive modulus `b`:
the representative of `a` in `[0, b)`. -/
def qmod (a b : ℚ) : ℚ := a - b * (⌊a / b⌋ : ℤ)

/-- Modelled from the spec: `remove_internal_phaseshift` lives in
`citkid/crs/util.py`, which is not among the repository files under `src/`.
The spec describes it as a pure function that divides out the instrument's
frequency-dependent loopback response: the loopback reference sample `zcal`,
captured at the same frequency `f` as the raw sample `z`, is divided out.
The frequency argument is carried but the response at `f` is the captured
`zcal` itself. -/
def remove_internal_phaseshift (f : ℚ) (z zcal : Cq) : Cq := Cq.div z zcal

/-- Modelled from the spec: the inverse of `remove_internal_phaseshift`,
multiplying the loopback response back in (the spec's round-trip law names
such an inverse). -/
def apply_internal_phaseshift (f : ℚ) (z zcal : Cq) : Cq := Cq.mul z zcal

/-- `transferfunctions.get_comb_sampling_freq()` of the external `hidfmux`
collaborator: 625 MHz (the value the source itself uses at
`instrument.py:291`). -/
def comb_sampling_freq : ℚ := 625000000

/-- Filter-bank bin width `comb_sampling_freq / 512` (`instrument.py:461`). -/
def binWidth : ℚ := comb_sampling_freq / 512

/-- Bin-boundary threshold of `write_tones` / `sweep` (`threshold = 101.`). -/
def boundaryThreshold : ℚ := 101

/-- Device bandwidth around an NCO: 325 MHz (`instrument.py:127`). -/
def bandwidth : ℚ := 325000000

/-- One frequency of the boundary-avoidance step
`fres[fres % (comb_sampling_freq/512) < threshold] += threshold`:
a frequency whose residue above the previous bin multiple is below the
threshold is pushed up by the threshold; all others are left alone. -/
def nudgeFreq (f : ℚ) : ℚ :=
  if qmod f binWidth < boundaryThreshold then f + boundaryThreshold else f

/-- `List.map` with the element's position, used to pair data with its
channel index. -/
def idxMap (f : Nat → α → β) : Nat → List α → List β
  | _, [] => []
  | i, a :: l => f i a :: idxMap f (i + 1) l

/-- The frequency perturbation of the module-level `write_tones` and `sweep`
macros: add the row of random offsets drawn by `np.random.uniform(-50, 50)`
(an explicit parameter here), then apply the bin-boundary nudge. -/
def perturbFres (offs fres : List ℚ) : List ℚ :=
  idxMap (fun i f => nudgeFreq (f + offs.getD i 0)) 0 fres

/-- Row-by-row perturbation of a sweep's frequency matrix. -/
def perturbMatrix (offs : List (List ℚ)) (rows : List (List ℚ)) : List (List ℚ) :=
  idxMap (fun i r => perturbFres (offs.getD i []) r) 0 rows

/-- Python's `min(iterable, key=key)` over a nonempty collection `x :: l`:
the first element attaining the minimal key (ties keep the earlier element). -/
def argminBy (key : α → ℚ) (x : α) (l : List α) : α :=
  l.foldl (fun b a => if key a < key b then a else b) x

/-- The NCO table `self.nco_freq_dict` as an insertion-ordered association
list: module index paired with NCO frequency in Hz.  It is nonempty in every
context that assigns channels (`write_tones` raises first otherwise), so the
assignment functions take it as a head entry `e` plus the remaining entries
`rest`. -/
abbrev NcoEntry := Nat × ℚ

/-- Sort key of `CRS.write_tones`' partition:
`np.abs(self.nco_freq_dict[k] - fr)`. -/
def toneKey (fr : ℚ) (p : NcoEntry) : ℚ := |p.2 - fr|

/-- The NCO-table entry `CRS.write_tones` assigns a tone at `fr` to:
`min(self.nco_freq_dict, key=lambda k: np.abs(self.nco_freq_dict[k] - fr))`. -/
def assignToneEntry (e : NcoEntry) (rest : List NcoEntry) (fr : ℚ) : NcoEntry :=
  argminBy (toneKey fr) e rest

/-- The module index `CRS.write_tones` assigns a tone at `fr` to. -/
def assignTone (e : NcoEntry) (rest : List NcoEntry) (fr : ℚ) : Nat :=
  (assignToneEntry e rest fr).1

/-- Python's `max` over a nonempty list `x :: l`. -/
def listMax (x : ℚ) (l : List ℚ) : ℚ := l.foldl max x

/-- Python's `min` over a nonempty list `x :: l`. -/
def listMin (x : ℚ) (l : List ℚ) : ℚ := l.foldl min x

/-- `max(freqs)` of a sweep row (0 for an empty row, which the source would
reject before reaching this point). -/
def rowMax : List ℚ → ℚ
  | [] => 0
  | x :: l => listMax x l

/-- `min(freqs)` of a sweep row. -/
def rowMin : List ℚ → ℚ
  | [] => 0
  | x :: l => listMin x l

/-- Sort key of `CRS.sweep`'s partition:
`max([np.abs(self.nco_freq_dict[k] - fr) for fr in [max(freqs), min(freqs)]])`. -/
def sweepKey (freqs : List ℚ) (p : NcoEntry) : ℚ :=
  max |p.2 - rowMax freqs| |p.2 - rowMin freqs|

/-- The NCO-table entry `CRS.sweep` assigns a channel swept over `freqs` to. -/
def assignSweepEntry (e : NcoEntry) (rest : List NcoEntry) (freqs : List ℚ) : NcoEntry :=
  argminBy (sweepKey freqs) e rest

/-- The module index `CRS.sweep` assigns a channel swept over `freqs` to. -/
def assignSweep (e : NcoEntry) (rest : List NcoEntry) (freqs : List ℚ) : Nat :=
  (assignSweepEntry e rest freqs).1

/-- The channel-index list `self.ch_ix_dict[m]` that the partitioning loop of
`CRS.write_tones` / `CRS.sweep` records for module `m`: the loop walks
channels `0..n-1` in order and appends each channel to its assigned module's
list, which is the in-order filter of `range n`. -/
def chIxOf (assign : Nat → Nat) (n m : Nat) : List Nat :=
  (List.range n).filter (fun i => assign i == m)

/-- Assignment function of `CRS.write_tones`' partition, as a function of the
channel index (`fr` is the channel's requested frequency). -/
def wtAssign (e : NcoEntry) (rest : List NcoEntry) (fres : List ℚ) : Nat → Nat :=
  fun i => assignTone e rest (fres.getD i 0)

/-- `self.ch_ix_dict[m]` after `CRS.write_tones`' partition.  `n` is the
number of channels the source's `zip(channel_indices, fres, ares)` walks:
the shorter of the two input lists. -/
def wtChIxDict (e : NcoEntry) (rest : List NcoEntry) (fres ares : List ℚ) (m : Nat) : List Nat :=
  chIxOf (wtAssign e rest fres) (min fres.length ares.length) m

/-- `self.fres_dict[m]` after `CRS.write_tones`' partition. -/
def wtFresDict (e : NcoEntry) (rest : List NcoEntry) (fres ares : List ℚ) (m : Nat) : List ℚ :=
  (wtChIxDict e rest fres ares m).map (fun i => fres.getD i 0)

/-- `self.ares_dict[m]` after `CRS.write_tones`' partition. -/
def wtAresDict (e : NcoEntry) (rest : List NcoEntry) (fres ares : List ℚ) (m : Nat) : List ℚ :=
  (wtChIxDict e rest fres ares m).map (fun i => ares.getD i 0)

/-- Assignment function of `CRS.sweep`'s partition, as a function of the
channel index (`rows` is the matrix of swept frequencies per channel). -/
def swAssign (e : NcoEntry) (rest : List NcoEntry) (rows : List (List ℚ)) : Nat → Nat :=
  fun i => assignSweep e rest (rows.getD i [])

/-- `self.ch_ix_dict[m]` after `CRS.sweep`'s partition. -/
def swChIxDict (e : NcoEntry) (rest : List NcoEntry) (rows : List (List ℚ)) (ares : List ℚ)
    (m : Nat) : List Nat :=
  chIxOf (swAssign e rest rows) (min rows.length ares.length) m

/-- `self.frequencies_dict[m]` after `CRS.sweep`'s partition. -/
def swFreqDict (e : NcoEntry) (rest : List NcoEntry) (rows : List (List ℚ)) (ares : List ℚ)
    (m : Nat) : List (List ℚ) :=
  (swChIxDict e rest rows ares m).map (fun i => rows.getD i [])

/-- `self.ares_dict[m]` after `CRS.sweep`'s partition. -/
def swAresDict (e : NcoEntry) (rest : List NcoEntry) (rows : List (List ℚ)) (ares : List ℚ)
    (m : Nat) : List ℚ :=
  (swChIxDict e rest rows ares m).map (fun i => ares.getD i 0)

/-- One remote command issued to the hardware (or to the external capture
process).  `setAmp` records the requested channel power in dBm; the device
receives the normalized DAC amplitude `10 ** ((a - full_scale_dbm) / 20)`,
which is determined by the recorded value and is irrational, so the trace
keeps the dBm request. -/
inductive Cmd where
  | clearChannels (m : Nat)
  | setFreq (m ch : Nat) (f : ℚ)
  | setAmp (m ch : Nat) (a : ℚ)
  | commitBatch (m : Nat)
  | setFirStage (s : Nat)
  | setRouting (m : Nat) (carrier : Bool)
  | getSamples (m n : Nat)
  | launchCapture (numSamps : Nat)
  | waitSeconds (s : ℚ)
  | readCaptureData (m : Nat)
deriving DecidableEq, Repr

/-- The exceptions the embedded functions raise. -/
inductive Err where
  | ncoNotSet
  | freqOutOfRange
  | amplitudeExceedsFullScale
  | aresLengthMismatch
  | fileExists
deriving DecidableEq, Repr

/-- The non-fatal warnings the embedded functions emit (`warnings.warn`). -/
inductive Warn where
  | lowFirStage
  | lowPowerTones
deriving DecidableEq, Repr

/-- Result of running one of the embedded operations: the hardware commands
issued up to the point where the operation returned or raised, the warnings
emitted, and the returned value or exception. -/
structure Outcome (α : Type) where
  cmds : List Cmd
  warns : List Warn
  result : Except Err α

/-- The batched `set_frequency` + `set_amplitude` context of the module-level
`write_tones` macro: one frequency/amplitude command pair per channel
(channels are 1-based on the device), then the batch commit. -/
def batchTones (m : Nat) (nco : ℚ) (fres ares : List ℚ) : List Cmd :=
  (idxMap (fun ch p => [Cmd.setFreq m (ch + 1) (p.1 - nco), Cmd.setAmp m (ch + 1) p.2])
    0 (fres.zip ares)).flatten ++ [Cmd.commitBatch m]

namespace ReadoutModule

/-- The `write_tones` macro added to `rfmux.ReadoutModule`
(`instrument.py:437-481`).  `offs` is the row of random offsets of
`np.random.uniform(-50, 50, fres.shape)`, an explicit parameter of the
embedding.  The macro perturbs the frequencies, checks the amplitudes
against the full scale (fatal) and against the low-power threshold
(warning), then clears the module's channels and writes the batch. -/
def write_tones (fullScale : ℚ) (m : Nat) (nco : ℚ) (offs fres ares : List ℚ) :
    Outcome Unit :=
  let fres1 := perturbFres offs fres
  if ares.any (fun a => decide (fullScale < a)) then
    ⟨[], [], .error .amplitudeExceedsFullScale⟩
  else
    let warns := if ares.any (fun a => decide (a < -60)) && decide (ares.length < 100)
      then [Warn.lowPowerTones] else []
    ⟨Cmd.clearChannels m :: batchTones m nco fres1 ares, warns, .ok ()⟩

end ReadoutModule

/-- Sequential dispatch of per-module operations
(`self.d.modules.filter(...)`): the modules run in table order, a raised
exception aborts the remaining modules, and the per-module values are
collected keyed by module index. -/
def runModules : List (Nat × Outcome α) → Outcome (List (Nat × α))
  | [] => ⟨[], [], .ok []⟩
  | (k, o) :: rest =>
    match o.result with
    | .error err => ⟨o.cmds, o.warns, .error err⟩
    | .ok a =>
      let r := runModules rest
      ⟨o.cmds ++ r.cmds, o.warns ++ r.warns, r.result.map (fun l => (k, a) :: l)⟩

/-- Value recorded for key `k` in the association list `runModules` builds. -/
def lookupD (l : List (Nat × α)) (k : Nat) (d : α) : α :=
  match l.find? (fun p => p.1 == k) with
  | some p => p.2
  | none => d

/-- First position of `i` in a channel-index list (`np.where`-style lookup). -/
def posOf (i : Nat) : List Nat → Option Nat
  | [] => none
  | a :: l => if a = i then some 0 else (posOf i l).map (· + 1)

/-- Modelled from the spec: `find_key_and_index` lives in
`citkid/crs/util.py`, which is not among the repository files under `src/`.
The spec's merge step restores the caller's channel ordering
`using the partition's recorded index mapping`: for a caller channel index
`i`, the first module key (in NCO-table order) whose recorded channel-index
list contains `i`, together with the position of `i` in that list. -/
def find_key_and_index (keys : List Nat) (chIx : Nat → List Nat) (i : Nat) :
    Option (Nat × Nat) :=
  match keys with
  | [] => none
  | k :: ks =>
    match posOf i (chIx k) with
    | some j => some (k, j)
    | none => find_key_and_index ks chIx i

/-- The merge loop of `CRS.sweep` (`instrument.py:182-185`) and
`CRS.capture_noise` (`instrument.py:396-402`): row `i` of the merged output
is the assigned module's per-module result at the position channel `i`
occupies in that module's recorded channel-index list. -/
def mergeRows (keys : List Nat) (chIx : Nat → List Nat) (res : Nat → List β)
    (n : Nat) (dflt : β) : List β :=
  (List.range n).map (fun i =>
    match find_key_and_index keys chIx i with
    | some (k, j) => (res k).getD j dflt
    | none => dflt)

/-- Sample data the device returns, an oracle of the embedding: for a module
and a sweep step, the per-channel lists of raw (ADC-routed) and loopback
(carrier-routed) samples that `py_get_samples` reads back. -/
structure SweepOracle where
  rawSamples : Nat → Nat → List (List Cq)
  calSamples : Nat → Nat → List (List Cq)

/-- Commands of one sweep step of the module-level `sweep` macro
(`instrument.py:534-548`): rewrite every channel's frequency in one batch,
route to the loopback (carrier) path, settle, read the calibration samples,
route back to the ADC path, settle, read the averaging window. -/
def sweepStepCmds (m : Nat) (nco : ℚ) (rows : List (List ℚ)) (nsamps j : Nat) : List Cmd :=
  (idxMap (fun ch r => Cmd.setFreq m (ch + 1) (r.getD j 0 - nco)) 0 rows) ++
  [Cmd.commitBatch m, Cmd.setRouting m true, Cmd.waitSeconds (1/2), Cmd.getSamples m 20,
   Cmd.setRouting m false, Cmd.waitSeconds (1/2), Cmd.getSamples m nsamps]

/-- The calibrated S21 matrix the module-level `sweep` macro stores in
`sweep_z` (`instrument.py:550-558`): per channel and step, average the raw
and loopback samples, remove the loopback phase, and scale to volts by
`volts_per_roc` (`vpr`, a constant of `citkid/crs/util.py`). -/
def moduleSweepZ (vpr : ℚ) (m : Nat) (rows : List (List ℚ)) (orc : SweepOracle) :
    List (List Cq) :=
  idxMap (fun ch r => idxMap (fun j f =>
      Cq.smul vpr (remove_internal_phaseshift f
        (cqMean ((orc.rawSamples m j).getD ch []))
        (cqMean ((orc.calSamples m j).getD ch [])))) 0 r) 0 rows

namespace ReadoutModule

/-- The `sweep` macro added to `rfmux.ReadoutModule`
(`instrument.py:483-562`): perturb the frequency matrix, write the first
sweep point's tones, then walk the sweep steps, and clear the channels when
done.  `offsM` and `offsW` are the random offset draws of the macro itself
and of the `write_tones` call it makes. -/
def sweep (fullScale vpr : ℚ) (m : Nat) (nco : ℚ) (offsM : List (List ℚ)) (offsW : List ℚ)
    (rows : List (List ℚ)) (ares : List ℚ) (orc : SweepOracle) (nsamps : Nat) :
    Outcome (List (List ℚ) × List (List Cq)) :=
  let rows1 := perturbMatrix offsM rows
  if rows1.isEmpty then ⟨[], [], .ok ([], [])⟩
  else if decide (ares.length ≠ rows1.length) then ⟨[], [], .error .aresLengthMismatch⟩
  else
    let wt := write_tones fullScale m nco offsW (rows1.map (fun r => r.getD 0 0)) ares
    match wt.result with
    | .error err => ⟨wt.cmds, wt.warns, .error err⟩
    | .ok _ =>
      let nPoints := (rows1.getD 0 []).length
      ⟨wt.cmds ++ ((List.range nPoints).map (sweepStepCmds m nco rows1 nsamps)).flatten
          ++ [Cmd.clearChannels m],
       wt.warns, .ok (rows1, moduleSweepZ vpr m rows1 orc)⟩

end ReadoutModule

namespace CRS

/-- `CRS.write_tones` (`instrument.py:102-132`): partitions the requested
tones over the modules by NCO proximity, validates the 325 MHz bandwidth
constraint, then dispatches the module-level `write_tones` macro per module.
`offsOf` gives each module's row of random frequency offsets. -/
def write_tones (fullScale : ℚ) (t : List NcoEntry) (offsOf : Nat → List ℚ)
    (fres ares : List ℚ) : Outcome Unit :=
  match t with
  | [] => ⟨[], [], .error .ncoNotSet⟩
  | e :: rest =>
    if (e :: rest).any (fun p =>
        (wtFresDict e rest fres ares p.1).any (fun fr => decide (bandwidth < |fr - p.2|))) then
      ⟨[], [], .error .freqOutOfRange⟩
    else
      let o := runModules ((e :: rest).map (fun p =>
        (p.1, ReadoutModule.write_tones fullScale p.1 p.2 (offsOf p.1)
          (wtFresDict e rest fres ares p.1) (wtAresDict e rest fres ares p.1))))
      ⟨o.cmds, o.warns, o.result.map (fun _ => ())⟩

/-- `CRS.sweep` (`instrument.py:134-189`): partitions the channels' swept
frequency ranges over the modules (each module must cover a channel's whole
span), validates the 325 MHz bandwidth constraint over every sweep point,
sets the FIR stage to 6, dispatches the module-level `sweep` macro per
module, and merges the per-module results back into the caller's channel
order.  `ampScale i` is the final per-channel rescale
`1 / (10 ** (ares[i] / 20))` times the splitter-loss factor when a splitter
is attached — an abstract oracle, since the powers of ten are irrational. -/
def sweep (fullScale vpr : ℚ) (t : List NcoEntry) (offsMOf : Nat → List (List ℚ))
    (offsWOf : Nat → List ℚ) (rows : List (List ℚ)) (ares : List ℚ) (orc : SweepOracle)
    (nsamps : Nat) (ampScale : Nat → ℚ) : Outcome (List (List ℚ) × List (List Cq)) :=
  match t with
  | [] => ⟨[], [], .error .ncoNotSet⟩
  | e :: rest =>
    if (e :: rest).any (fun p => (swFreqDict e rest rows ares p.1).any (fun r =>
        r.any (fun fr => decide (bandwidth < |fr - p.2|)))) then
      ⟨[], [], .error .freqOutOfRange⟩
    else
      let o := runModules ((e :: rest).map (fun p =>
        (p.1, ReadoutModule.sweep fullScale vpr p.1 p.2 (offsMOf p.1) (offsWOf p.1)
          (swFreqDict e rest rows ares p.1) (swAresDict e rest rows ares p.1) orc nsamps)))
      ⟨Cmd.setFirStage 6 :: o.cmds, o.warns,
       o.result.map (fun resList =>
        (mergeRows ((e :: rest).map Prod.fst) (swChIxDict e rest rows ares)
          (fun k => (lookupD resList k ([], [])).1) rows.length [],
         idxMap (fun i r => r.map (Cq.smul (ampScale i))) 0
          (mergeRows ((e :: rest).map Prod.fst) (swChIxDict e rest rows ares)
            (fun k => (lookupD resList k ([], [])).2) rows.length [])))⟩

/-- `np.linspace(start, stop, n)`: `n` evenly spaced points from `start` to
`stop` inclusive (for `n = 1`, just `start`). -/
def linspaceQ (start stop : ℚ) (n : Nat) : List ℚ :=
  (List.range n).map (fun i => start + (stop - start) * i / ((n : ℚ) - 1))

/-- `CRS.sweep_linear` (`instrument.py:191-215`): every channel swept over
the same bandwidth `bw` around its center frequency; reduces to `sweep` on
the constructed frequency matrix. -/
def sweep_linear (fullScale vpr : ℚ) (t : List NcoEntry) (offsMOf : Nat → List (List ℚ))
    (offsWOf : Nat → List ℚ) (fres ares : List ℚ) (bw : ℚ) (npoints : Nat)
    (orc : SweepOracle) (nsamps : Nat) (ampScale : Nat → ℚ) :
    Outcome (List (List ℚ) × List (List Cq)) :=
  sweep fullScale vpr t offsMOf offsWOf
    (fres.map (fun fr => linspaceQ (fr + bw / 2) (fr - bw / 2) npoints)) ares orc nsamps ampScale

/-- `CRS.sweep_qres` (`instrument.py:217-241`): the span around each center
frequency is `fres / qres`; reduces to `sweep` on the constructed matrix. -/
def sweep_qres (fullScale vpr : ℚ) (t : List NcoEntry) (offsMOf : Nat → List (List ℚ))
    (offsWOf : Nat → List ℚ) (fres ares qres : List ℚ) (npoints : Nat)
    (orc : SweepOracle) (nsamps : Nat) (ampScale : Nat → ℚ) :
    Outcome (List (List ℚ) × List (List Cq)) :=
  sweep fullScale vpr t offsMOf offsWOf
    ((fres.zip qres).map (fun p => linspaceQ (p.1 + p.1 / p.2 / 2) (p.1 - p.1 / p.2 / 2) npoints))
    ares orc nsamps ampScale

/-- Stable insertion by ascending frequency, standing for the
`np.argsort`-based reorder of `CRS.sweep_full`'s flattened output. -/
def insertByFreq (p : ℚ × Cq) : List (ℚ × Cq) → List (ℚ × Cq)
  | [] => [p]
  | q :: l => if p.1 < q.1 then p :: q :: l else q :: insertByFreq p l

/-- Sort of the flattened `(f, z)` pairs by ascending frequency. -/
def sortByFreq : List (ℚ × Cq) → List (ℚ × Cq)
  | [] => []
  | p :: l => insertByFreq p (sortByFreq l)

/-- The center frequencies `CRS.sweep_full` constructs (`instrument.py:257-261`):
1024 evenly spaced centers across the 600 MHz band of every configured NCO. -/
def fullFres (t : List NcoEntry) (bw : ℚ) : List ℚ :=
  (t.map (fun p =>
    linspaceQ (p.2 - 300000000 + 10 + bw) (p.2 + 300000000 - 10 - bw) 1024)).flatten

/-- `CRS.sweep_full` (`instrument.py:243-268`): sweeps the full 600 MHz band
around every configured NCO by reducing to `sweep_linear` on 1024 centers
per module, then flattens the result and reorders it by frequency. -/
def sweep_full (fullScale vpr : ℚ) (t : List NcoEntry) (offsMOf : Nat → List (List ℚ))
    (offsWOf : Nat → List ℚ) (amplitude : ℚ) (npoints : Nat)
    (orc : SweepOracle) (nsamps : Nat) (ampScale : Nat → ℚ) :
    Outcome (List (ℚ × Cq)) :=
  let bw : ℚ := 600000000 / 1024 + 200
  let spacing : ℚ := bw / npoints
  let fres := fullFres t bw
  let o := sweep_linear fullScale vpr t offsMOf offsWOf fres
    (fres.map (fun _ => amplitude)) (bw - spacing) npoints orc nsamps ampScale
  ⟨o.cmds, o.warns, o.result.map (fun r => sortByFreq (r.1.flatten.zip r.2.flatten))⟩

end CRS

/-- `sample_frequency` of `CRS.capture_noise` (`instrument.py:365`):
`625e6 / (256 * 64 * 2 ** fir_stage)`. -/
def sampleFrequency (fir : Nat) : ℚ := 625000000 / (256 * 64 * 2 ^ fir)

/-- The capture agent's target sample count (`instrument.py:380`):
`int(sample_frequency * (noise_time + 10))`. -/
def numSamps (fir noiseTime : Nat) : Nat :=
  (⌊sampleFrequency fir * ((noiseTime : ℚ) + 10)⌋).toNat

/-- `noise_zcal_dict[m]` built by the `get_noise_cal` macro
(`instrument.py:564-585`): the first `len(fres_dict[m])` per-channel rows of
the loopback capture (an oracle `calS`), averaged per channel. -/
def noiseZcalDict (e : NcoEntry) (rest : List NcoEntry) (fres ares : List ℚ)
    (calS : Nat → List (List Cq)) (m : Nat) : List Cq :=
  ((calS m).take (wtFresDict e rest fres ares m).length).map cqMean

/-- Per-module calibrated noise timestreams of `CRS.capture_noise`
(`instrument.py:397-398`): row `j` (one per entry of the module's
channel-index list) is the parser's raw timestream for that tone (an oracle
`capData`) with the loopback phase removed, using the module's tone
frequency and calibration frame for that row. -/
def noiseModuleRows (e : NcoEntry) (rest : List NcoEntry) (fres ares : List ℚ)
    (capData calS : Nat → List (List Cq)) (m : Nat) : List (List Cq) :=
  (List.range (wtChIxDict e rest fres ares m).length).map (fun j =>
    ((capData m).getD j []).map (fun s =>
      remove_internal_phaseshift ((wtFresDict e rest fres ares m).getD j 0) s
        ((noiseZcalDict e rest fres ares calS m).getD j Cq.zero)))

/-- `min` over a nonempty list of lengths. -/
def minLenNat (x : Nat) (l : List Nat) : Nat := l.foldl min x

/-- `data_len = min([len(zi) for zi in z])` (`instrument.py:404`); 0 for the
empty list (on which the source's `min` would raise). -/
def truncLen : List (List Cq) → Nat
  | [] => 0
  | r :: rs => minLenNat r.length (rs.map List.length)

/-- The truncation `z = np.array([zi[:data_len] for zi in z])`
(`instrument.py:405`): every channel cut to the shortest channel's length. -/
def truncateRows (zs : List (List Cq)) : List (List Cq) :=
  zs.map (List.take (truncLen zs))

/-- The merged (pre-truncation) noise timestreams of `CRS.capture_noise`:
the per-module calibrated rows restored to the caller's channel order
(`instrument.py:396-402`). -/
def noiseAssembled (e : NcoEntry) (rest : List NcoEntry) (fres ares : List ℚ)
    (capData calS : Nat → List (List Cq)) : List (List Cq) :=
  mergeRows ((e :: rest).map Prod.fst) (wtChIxDict e rest fres ares)
    (noiseModuleRows e rest fres ares capData calS) fres.length []

namespace CRS

/-- `CRS.capture_noise` (`instrument.py:326-415`): warn on a low FIR stage,
fail if the parser's output directory pre-exists, set the FIR stage, write
the tones, capture one loopback calibration frame per module, launch the
external capture process, block for the requested duration plus a fixed
margin, set the FIR stage back to 6, then read the per-module capture
output, calibrate, merge into caller channel order and truncate to the
shortest channel.  `dirExists` models the `os.path.exists(data_path)`
precondition; `calS` and `capData` are the device/parser data oracles;
`ampScale` is the final per-channel rescale as in `sweep`. -/
def capture_noise (fullScale : ℚ) (t : List NcoEntry) (offsOf : Nat → List ℚ)
    (dirExists : Bool) (firStage noiseTime : Nat) (fres ares : List ℚ)
    (calS capData : Nat → List (List Cq)) (ampScale : Nat → ℚ) :
    Outcome (List (List Cq)) :=
  let warns0 := if firStage ≤ 4 then [Warn.lowFirStage] else []
  if dirExists then ⟨[], warns0, .error .fileExists⟩
  else
    let wt := write_tones fullScale t offsOf fres ares
    match t, wt.result with
    | _, .error err => ⟨Cmd.setFirStage firStage :: wt.cmds, warns0 ++ wt.warns, .error err⟩
    | [], .ok _ => ⟨Cmd.setFirStage firStage :: wt.cmds, warns0 ++ wt.warns, .error .ncoNotSet⟩
    | e :: rest, .ok _ =>
      let keys := (e :: rest).map Prod.fst
      let calCmds := (keys.map (fun m =>
        [Cmd.setRouting m true, Cmd.getSamples m 20, Cmd.setRouting m false])).flatten
      let assembled := noiseAssembled e rest fres ares capData calS
      ⟨Cmd.setFirStage firStage :: wt.cmds ++ [Cmd.waitSeconds 1] ++ calCmds
         ++ [Cmd.waitSeconds (1/10), Cmd.launchCapture (numSamps firStage noiseTime),
             Cmd.waitSeconds ((noiseTime : ℚ) + 20), Cmd.setFirStage 6]
         ++ keys.map Cmd.readCaptureData,
       warns0 ++ wt.warns,
       .ok (idxMap (fun i r => r.map (Cq.smul (ampScale i))) 0 (truncateRows assembled))⟩

end CRS

/-- The device's FIR (decimation) stage after a command trace runs, starting
from stage `s`. -/
def firAfter (s : Nat) : List Cmd → Nat
  | [] => s
  | Cmd.setFirStage k :: l => firAfter k l
  | _ :: l => firAfter s l

/-! ## Helper lemmas -/

theorem cq_normSq_ne_zero {w : Cq} (h : w ≠ Cq.zero) : w.normSq ≠ 0 := by
  intro h0
  apply h
  cases w with
  | mk a b =>
    have ha : a * a + b * b = 0 := h0
    have haa : a * a = 0 := le_antisymm (by nlinarith [mul_self_nonneg b]) (mul_self_nonneg a)
    have hbb : b * b = 0 := by linarith
    have : a = 0 := mul_self_eq_zero.mp haa
    have : b = 0 := mul_self_eq_zero.mp hbb
    simp_all [Cq.zero]

theorem qmod_nonneg (a b : ℚ) (hb : 0 < b) : 0 ≤ qmod a b := by
  unfold qmod
  rw [sub_nonneg, mul_comm, ← le_div_iff hb]
  exact Int.floor_le _

theorem qmod_lt (a b : ℚ) (hb : 0 < b) : qmod a b < b := by
  unfold qmod
  have h := Int.lt_floor_add_one (a / b)
  have h2 := mul_lt_mul_of_pos_right h hb
  have ha : a / b * b = a := div_mul_cancel₀ a (ne_of_gt hb)
  rw [ha] at h2
  nlinarith

theorem qmod_add_of_lt (a t b : ℚ) (hb : 0 < b) (h0 : 0 ≤ qmod a b + t)
    (h1 : qmod a b + t < b) : qmod (a + t) b = qmod a b + t := by
  have hbne : b ≠ 0 := ne_of_gt hb
  have hfloor : ⌊(a + t) / b⌋ = ⌊a / b⌋ := by
    rw [Int.floor_eq_iff]
    have hq : a = b * (⌊a / b⌋ : ℤ) + qmod a b := by unfold qmod; ring
    constructor
    · rw [le_div_iff hb]
      unfold qmod at h0
      nlinarith
    · rw [div_lt_iff hb]
      unfold qmod at h1
      push_cast
      nlinarith
  unfold qmod
  rw [hfloor]
  ring

theorem binWidth_pos : (0 : ℚ) < binWidth := by
  norm_num [binWidth, comb_sampling_freq]

/-- After the boundary nudge, every frequency sits at least the threshold
above the previous filter-bank bin multiple. -/
theorem nudgeFreq_residue_ge (f : ℚ) : boundaryThreshold ≤ qmod (nudgeFreq f) binWidth := by
  unfold nudgeFreq
  by_cases h : qmod f binWidth < boundaryThreshold
  · simp only [h, if_true]
    have h0 : 0 ≤ qmod f binWidth := qmod_nonneg f binWidth binWidth_pos
    have hth : boundaryThreshold + boundaryThreshold < binWidth := by
      norm_num [boundaryThreshold, binWidth, comb_sampling_freq]
    rw [qmod_add_of_lt f boundaryThreshold binWidth binWidth_pos
      (by norm_num [boundaryThreshold] at h0 ⊢; linarith)
      (by linarith)]
    linarith
  · simp only [h, if_false]
    linarith [not_lt.mp h]

theorem mem_idxMap {f : Nat → α → β} {b : β} :
    ∀ {i : Nat} {l : List α}, b ∈ idxMap f i l → ∃ j a, b = f j a := by
  intro i l
  induction l generalizing i with
  | nil => intro h; simp [idxMap] at h
  | cons x t ih =>
    intro h
    simp only [idxMap, List.mem_cons] at h
    rcases h with h | h
    · exact ⟨i, x, h⟩
    · exact ih h

/-- Python's `min(x :: l, key=key)` returns an element of the collection and
its key is minimal among all elements. -/
theorem argminBy_spec (key : α → ℚ) (x : α) (l : List α) :
    (argminBy key x l = x ∨ argminBy key x l ∈ l) ∧
      ∀ y, (y = x ∨ y ∈ l) → key (argminBy key x l) ≤ key y := by
  induction l generalizing x with
  | nil =>
    refine ⟨Or.inl rfl, ?_⟩
    rintro y (rfl | hy)
    · exact le_refl _
    · cases hy
  | cons a t ih =>
    by_cases h : key a < key x
    · have hstep : argminBy key x (a :: t) = argminBy key a t := by
        simp [argminBy, List.foldl, h]
      rw [hstep]
      obtain ⟨hmem, hmin⟩ := ih (x := a)
      constructor
      · refine Or.inr ?_
        rcases hmem with h1 | h1
        · rw [h1]; exact List.mem_cons_self a t
        · exact List.mem_cons_of_mem a h1
      · rintro y (rfl | hy)
        · exact le_trans (hmin a (Or.inl rfl)) (le_of_lt h)
        · rcases List.mem_cons.mp hy with rfl | hy2
          · exact hmin y (Or.inl rfl)
          · exact hmin y (Or.inr hy2)
    · have hstep : argminBy key x (a :: t) = argminBy key x t := by
        simp [argminBy, List.foldl, h]
      rw [hstep]
      obtain ⟨hmem, hmin⟩ := ih (x := x)
      constructor
      · rcases hmem with h1 | h1
        · exact Or.inl h1
        · exact Or.inr (List.mem_cons_of_mem a h1)
      · rintro y (rfl | hy)
        · exact hmin y (Or.inl rfl)
        · rcases List.mem_cons.mp hy with rfl | hy2
          · exact le_trans (hmin x (Or.inl rfl)) (not_lt.mp h)
          · exact hmin y (Or.inr hy2)

theorem count_filter_range (p : Nat → Bool) (n a : Nat) :
    ((List.range n).filter p).count a = if p a = true ∧ a < n then 1 else 0 := by
  induction n with
  | zero => simp
  | succ n ih =>
    rw [List.range_succ, List.filter_append, List.count_append, ih]
    by_cases ha : a = n
    · subst ha
      by_cases hp : p a = true
      · simp [hp, Nat.lt_irrefl, Nat.lt_succ_self]
      · simp [hp]
    · have h2 : (List.count a (List.filter p [n])) = 0 := by
        rw [List.count_eq_zero]
        intro hmem
        exact ha (by simpa using List.mem_of_mem_filter hmem)
      rw [h2]
      have hiff : (p a = true ∧ a < n) ↔ (p a = true ∧ a < n + 1) := by
        constructor
        · rintro ⟨h1, h2⟩; exact ⟨h1, Nat.lt_succ_of_lt h2⟩
        · rintro ⟨h1, h2⟩; exact ⟨h1, by omega⟩
      rw [if_congr hiff rfl rfl]
      omega

theorem sum_map_ite_eq_one (keys : List Nat) (hnd : keys.Nodup) (b : Nat) (hb : b ∈ keys) :
    (keys.map (fun k => if b = k then 1 else 0)).sum = 1 := by
  induction keys with
  | nil => cases hb
  | cons k ks ih =>
    simp only [List.map_cons, List.sum_cons]
    rcases List.mem_cons.mp hb with rfl | hmem
    · rw [if_pos rfl]
      have hnot : b ∉ ks := (List.nodup_cons.mp hnd).1
      have hz : (ks.map (fun j => if b = j then 1 else 0)).sum = 0 := by
        apply List.sum_eq_zero
        intro x hx
        obtain ⟨j, hj, rfl⟩ := List.mem_map.mp hx
        rw [if_neg]
        rintro rfl
        exact hnot hj
      rw [hz]
    · have hne : b ≠ k := by
        rintro rfl
        exact (List.nodup_cons.mp hnd).1 hmem
      rw [if_neg hne, ih (List.nodup_cons.mp hnd).2 hmem]

/-- The channel-index lists the partition records, concatenated in module
order, are a permutation of the original channel indices `0..n-1`: the
channel-to-module assignment is a bijection between channels and per-module
slots. -/
theorem chIx_flatten_perm (keys : List Nat) (assign : Nat → Nat) (n : Nat)
    (hnd : keys.Nodup) (hcov : ∀ i, i < n → assign i ∈ keys) :
    ((keys.map (fun m => chIxOf assign n m)).flatten).Perm (List.range n) := by
  rw [List.perm_iff_count]
  intro a
  rw [List.count_flatten, List.map_map]
  have hmap : keys.map (List.count a ∘ fun m => chIxOf assign n m)
      = keys.map (fun k => if assign a = k ∧ a < n then 1 else 0) := by
    apply List.map_congr_left
    intro k _
    show List.count a (chIxOf assign n k) = _
    unfold chIxOf
    rw [count_filter_range]
    have hiff : ((fun i => assign i == k) a = true ∧ a < n) ↔ (assign a = k ∧ a < n) := by
      simp
    exact if_congr hiff rfl rfl
  rw [hmap]
  by_cases ha : a < n
  · have h1 : (List.range n).count a = 1 :=
      List.count_eq_one_of_mem (List.nodup_range n) (List.mem_range.mpr ha)
    rw [h1]
    have : keys.map (fun k => if assign a = k ∧ a < n then 1 else 0)
        = keys.map (fun k => if assign a = k then 1 else 0) := by
      apply List.map_congr_left
      intro k _
      exact if_congr ⟨fun h => h.1, fun h => ⟨h, ha⟩⟩ rfl rfl
    rw [this]
    exact sum_map_ite_eq_one keys hnd (assign a) (hcov a ha)
  · have h1 : (List.range n).count a = 0 := by
      rw [List.count_eq_zero]
      simp [List.mem_range, ha]
    rw [h1]
    apply List.sum_eq_zero
    intro x hx
    obtain ⟨k, _, rfl⟩ := List.mem_map.mp hx
    rw [if_neg]
    rintro ⟨_, h⟩
    exact ha h

theorem posOf_of_mem {i : Nat} : ∀ {l : List Nat}, i ∈ l → ∃ j, posOf i l = some j := by
  intro l
  induction l with
  | nil => intro h; cases h
  | cons a t ih =>
    intro h
    by_cases ha : a = i
    · exact ⟨0, by simp [posOf, ha]⟩
    · rcases List.mem_cons.mp h with rfl | hmem
      · exact absurd rfl ha
      · obtain ⟨j, hj⟩ := ih hmem
        exact ⟨j + 1, by simp [posOf, ha, hj]⟩

theorem posOf_none_of_not_mem {i : Nat} : ∀ {l : List Nat}, i ∉ l → posOf i l = none := by
  intro l
  induction l with
  | nil => intro _; rfl
  | cons a t ih =>
    intro h
    have ha : a ≠ i := by
      rintro rfl
      exact h (List.mem_cons_self a t)
    have ht : i ∉ t := fun hm => h (List.mem_cons_of_mem a hm)
    simp [posOf, ha, ih ht]

theorem posOf_map_getD {i : Nat} (f : Nat → β) (d : β) :
    ∀ {l : List Nat} {j : Nat}, posOf i l = some j → (l.map f).getD j d = f i := by
  intro l
  induction l with
  | nil => intro j h; cases h
  | cons a t ih =>
    intro j h
    by_cases ha : a = i
    · simp only [posOf, ha, if_pos rfl] at h
      cases h
      simp [ha]
    · simp only [posOf, ha, if_false, Option.map_eq_some'] at h
      obtain ⟨j', hj', rfl⟩ := h
      simpa using ih hj'

theorem mem_chIxOf {assign : Nat → Nat} {n m i : Nat} (hi : i < n) (hm : assign i = m) :
    i ∈ chIxOf assign n m := by
  unfold chIxOf
  exact List.mem_filter.mpr ⟨List.mem_range.mpr hi, by simp [hm]⟩

theorem not_mem_chIxOf {assign : Nat → Nat} {n m i : Nat} (hm : assign i ≠ m) :
    i ∉ chIxOf assign n m := by
  unfold chIxOf
  intro h
  exact hm (by simpa using (List.mem_filter.mp h).2)

/-- `find_key_and_index` recovers exactly the assigned module of channel `i`
together with its position in that module's channel-index list. -/
theorem find_key_and_index_eq (assign : Nat → Nat) (n i : Nat) (hi : i < n) :
    ∀ {keys : List Nat}, assign i ∈ keys →
      ∃ j, find_key_and_index keys (chIxOf assign n) i = some (assign i, j) ∧
        posOf i (chIxOf assign n (assign i)) = some j := by
  intro keys
  induction keys with
  | nil => intro h; cases h
  | cons k ks ih =>
    intro h
    by_cases hk : k = assign i
    · subst hk
      obtain ⟨j, hj⟩ := posOf_of_mem (mem_chIxOf hi rfl)
      exact ⟨j, by simp [find_key_and_index, hj], hj⟩
    · have hnone : posOf i (chIxOf assign n k) = none :=
        posOf_none_of_not_mem (not_mem_chIxOf (fun he => hk he.symm))
      have hmem : assign i ∈ ks := by
        rcases List.mem_cons.mp h with he | hm
        · exact absurd he.symm hk
        · exact hm
      obtain ⟨j, hfind, hpos⟩ := ih hmem
      exact ⟨j, by simp [find_key_and_index, hnone, hfind], hpos⟩

/-- Merging per-module results through the recorded channel-index mapping
restores the caller's channel order: if module `m`'s result list is `G`
applied to each of its recorded channels, the merged output is `G` applied
to the channels `0..n-1` in the caller's order. -/
theorem mergeRows_restores_order (keys : List Nat) (assign : Nat → Nat) (n : Nat)
    (G : Nat → β) (dflt : β) (hcov : ∀ i, i < n → assign i ∈ keys) :
    mergeRows keys (chIxOf assign n) (fun m => (chIxOf assign n m).map G) n dflt
      = (List.range n).map G := by
  apply List.ext_getElem
  · simp [mergeRows]
  · intro idx h1 h2
    have hn : idx < n := by simpa [mergeRows] using h1
    simp only [mergeRows, List.getElem_map, List.getElem_range]
    obtain ⟨j, hfind, hpos⟩ := find_key_and_index_eq assign n idx hn (hcov idx hn)
    rw [hfind]
    exact posOf_map_getD G dflt hpos

/-- When some requested tone lies beyond the bandwidth of its assigned
module's NCO, the per-module validation loop of `CRS.write_tones` finds it. -/
theorem wt_check_true (e : NcoEntry) (rest : List NcoEntry) (fres ares : List ℚ)
    (h : ∃ i < min fres.length ares.length,
      bandwidth < |fres.getD i 0 - (assignToneEntry e rest (fres.getD i 0)).2|) :
    ((e :: rest).any (fun p =>
      (wtFresDict e rest fres ares p.1).any (fun fr => decide (bandwidth < |fr - p.2|)))) = true := by
  obtain ⟨i, hi, hgt⟩ := h
  simp only [List.any_eq_true, decide_eq_true_eq]
  refine ⟨assignToneEntry e rest (fres.getD i 0), ?_, fres.getD i 0, ?_, hgt⟩
  · obtain ⟨hmem, _⟩ := argminBy_spec (toneKey (fres.getD i 0)) e rest
    rcases hmem with h1 | h1
    · unfold assignToneEntry; rw [h1]; exact List.mem_cons_self e rest
    · exact List.mem_cons_of_mem e h1
  · unfold wtFresDict
    refine List.mem_map.mpr ⟨i, ?_, rfl⟩
    unfold wtChIxDict chIxOf
    refine List.mem_filter.mpr ⟨List.mem_range.mpr hi, ?_⟩
    simp [wtAssign, assignTone]

/-- When some sweep point lies beyond the bandwidth of its row's assigned
module's NCO, the per-module validation loop of `CRS.sweep` finds it. -/
theorem sw_check_true (e : NcoEntry) (rest : List NcoEntry) (rows : List (List ℚ))
    (ares : List ℚ)
    (h : ∃ i < min rows.length ares.length, ∃ fr ∈ rows.getD i [],
      bandwidth < |fr - (assignSweepEntry e rest (rows.getD i [])).2|) :
    ((e :: rest).any (fun p => (swFreqDict e rest rows ares p.1).any (fun r =>
      r.any (fun fr => decide (bandwidth < |fr - p.2|))))) = true := by
  obtain ⟨i, hi, fr, hfr, hgt⟩ := h
  simp only [List.any_eq_true, decide_eq_true_eq]
  refine ⟨assignSweepEntry e rest (rows.getD i []), ?_, rows.getD i [], ?_, fr, hfr, hgt⟩
  · obtain ⟨hmem, _⟩ := argminBy_spec (sweepKey (rows.getD i [])) e rest
    rcases hmem with h1 | h1
    · unfold assignSweepEntry; rw [h1]; exact List.mem_cons_self e rest
    · exact List.mem_cons_of_mem e h1
  · unfold swFreqDict
    refine List.mem_map.mpr ⟨i, ?_, rfl⟩
    unfold swChIxDict chIxOf
    refine List.mem_filter.mpr ⟨List.mem_range.mpr hi, ?_⟩
    simp [swAssign, assignSweep]

/-! ## Claims -/

theorem firAfter_append (s : Nat) (l1 l2 : List Cmd) :
    firAfter s (l1 ++ l2) = firAfter (firAfter s l1) l2 := by
  induction l1 generalizing s with
  | nil => rfl
  | cons c l ih => cases c <;> simp [firAfter, ih]

theorem firAfter_of_no_setFir (s : Nat) (l : List Cmd)
    (h : ∀ k, Cmd.setFirStage k ∉ l) : firAfter s l = s := by
  induction l generalizing s with
  | nil => rfl
  | cons c t ih =>
    have ht : ∀ k, Cmd.setFirStage k ∉ t := fun k hk => h k (List.mem_cons_of_mem c hk)
    cases c with
    | setFirStage k => exact absurd (List.mem_cons_self _ t) (h k)
    | _ => simp [firAfter, ih _ ht]

theorem no_setFir_batchTones (m : Nat) (nco : ℚ) (fres ares : List ℚ) (k : Nat) :
    Cmd.setFirStage k ∉ batchTones m nco fres ares := by
  intro hmem
  unfold batchTones at hmem
  rcases List.mem_append.mp hmem with h | h
  · obtain ⟨row, hrow, hc⟩ := List.mem_flatten.mp h
    obtain ⟨j, a, rfl⟩ := mem_idxMap hrow
    simp at hc
  · simp at h

theorem no_setFir_module_write_tones (fullScale : ℚ) (m : Nat) (nco : ℚ)
    (offs fres ares : List ℚ) (k : Nat) :
    Cmd.setFirStage k ∉ (ReadoutModule.write_tones fullScale m nco offs fres ares).cmds := by
  unfold ReadoutModule.write_tones
  by_cases hb : ares.any (fun a => decide (fullScale < a)) = true
  · simp [hb]
  · simp only [Bool.not_eq_true] at hb
    simp only [hb]
    intro hmem
    rcases List.mem_cons.mp hmem with h | h
    · simp at h
    · exact no_setFir_batchTones m nco _ ares k h

theorem no_setFir_sweepStepCmds (m : Nat) (nco : ℚ) (rows : List (List ℚ))
    (nsamps j k : Nat) : Cmd.setFirStage k ∉ sweepStepCmds m nco rows nsamps j := by
  intro hmem
  unfold sweepStepCmds at hmem
  rcases List.mem_append.mp hmem with h | h
  · obtain ⟨i, a, h2⟩ := mem_idxMap h
    simp at h2
  · simp at h

theorem no_setFir_module_sweep (fullScale vpr : ℚ) (m : Nat) (nco : ℚ)
    (offsM : List (List ℚ)) (offsW : List ℚ) (rows : List (List ℚ)) (ares : List ℚ)
    (orc : SweepOracle) (nsamps k : Nat) :
    Cmd.setFirStage k
      ∉ (ReadoutModule.sweep fullScale vpr m nco offsM offsW rows ares orc nsamps).cmds := by
  unfold ReadoutModule.sweep
  by_cases he : (perturbMatrix offsM rows).isEmpty
  · simp [he]
  · simp only [he, Bool.false_eq_true, if_false]
    by_cases hl : decide (ares.length ≠ (perturbMatrix offsM rows).length) = true
    · simp [hl]
    · simp only [Bool.not_eq_true] at hl
      simp only [hl]
      rcases hres : (ReadoutModule.write_tones fullScale m nco offsW
          ((perturbMatrix offsM rows).map (fun r => r.getD 0 0)) ares).result with err | u
      · simp only [hres]
        exact no_setFir_module_write_tones fullScale m nco offsW _ ares k
      · simp only [hres]
        intro hmem
        rcases List.mem_append.mp hmem with h | h
        · rcases List.mem_append.mp h with h2 | h2
          · exact no_setFir_module_write_tones fullScale m nco offsW _ ares k h2
          · obtain ⟨row, hrow, hc⟩ := List.mem_flatten.mp h2
            obtain ⟨j, _, rfl⟩ := List.mem_map.mp hrow
            exact no_setFir_sweepStepCmds m nco _ nsamps j k hc
        · simp at h

theorem no_setFir_runModules {α : Type} (os : List (Nat × Outcome α))
    (h : ∀ p ∈ os, ∀ k, Cmd.setFirStage k ∉ p.2.cmds) (k : Nat) :
    Cmd.setFirStage k ∉ (runModules os).cmds := by
  induction os with
  | nil => simp [runModules]
  | cons p rest ih =>
    obtain ⟨m, o⟩ := p
    have hp := h (m, o) (List.mem_cons_self _ _) k
    have hr : ∀ q ∈ rest, ∀ j, Cmd.setFirStage j ∉ q.2.cmds :=
      fun q hq => h q (List.mem_cons_of_mem _ hq)
    rcases hres : o.result with err | a
    · simpa [runModules, hres] using hp
    · simp only [runModules, hres]
      intro hmem
      rcases List.mem_append.mp hmem with h2 | h2
      · exact hp h2
      · exact ih hr h2

/-- On success, the command trace of `CRS.sweep` opens with the FIR-stage
write of 6 and contains no further FIR-stage command. -/
theorem sweep_success_cmds (fullScale vpr : ℚ) (t : List NcoEntry)
    (offsMOf : Nat → List (List ℚ)) (offsWOf : Nat → List ℚ) (rows : List (List ℚ))
    (ares : List ℚ) (orc : SweepOracle) (nsamps : Nat) (ampScale : Nat → ℚ)
    (r : List (List ℚ) × List (List Cq))
    (h : (CRS.sweep fullScale vpr t offsMOf offsWOf rows ares orc nsamps ampScale).result
      = .ok r) :
    ∃ tl, (CRS.sweep fullScale vpr t offsMOf offsWOf rows ares orc nsamps ampScale).cmds
        = Cmd.setFirStage 6 :: tl ∧ ∀ k, Cmd.setFirStage k ∉ tl := by
  match t with
  | [] => simp [CRS.sweep] at h
  | e :: rest =>
    by_cases hchk : ((e :: rest).any (fun p => (swFreqDict e rest rows ares p.1).any (fun r =>
        r.any (fun fr => decide (bandwidth < |fr - p.2|))))) = true
    · simp [CRS.sweep, hchk] at h
    · simp only [Bool.not_eq_true] at hchk
      have hno : ∀ k, Cmd.setFirStage k ∉ (runModules ((e :: rest).map (fun p =>
          (p.1, ReadoutModule.sweep fullScale vpr p.1 p.2 (offsMOf p.1) (offsWOf p.1)
            (swFreqDict e rest rows ares p.1) (swAresDict e rest rows ares p.1)
            orc nsamps)))).cmds := by
        intro k
        apply no_setFir_runModules
        intro p hp j
        obtain ⟨q, _, rfl⟩ := List.mem_map.mp hp
        exact no_setFir_module_sweep fullScale vpr q.1 q.2 (offsMOf q.1) (offsWOf q.1)
          _ _ orc nsamps j
      refine ⟨_, ?_, hno⟩
      show (CRS.sweep fullScale vpr (e :: rest) offsMOf offsWOf rows ares orc nsamps
        ampScale).cmds = Cmd.setFirStage 6 :: _
      simp only [CRS.sweep, hchk, Bool.false_eq_true, if_false]

theorem no_setFir_map_read (ks : List Nat) (k : Nat) :
    Cmd.setFirStage k ∉ ks.map Cmd.readCaptureData := by
  intro h
  obtain ⟨m, _, hm⟩ := List.mem_map.mp h
  cases hm

/-- On success, `CRS.capture_noise` ran with a non-empty NCO table on a fresh
output directory, and its command trace is exactly: set the FIR stage, write
the tones, settle, capture the per-module calibration frames, launch the
external capture, block for the duration plus margin, set the FIR stage back
to 6, and read each module's capture output. -/
theorem capture_noise_success_cmds (fullScale : ℚ) (t : List NcoEntry)
    (offsOf : Nat → List ℚ) (dirExists : Bool) (firStage noiseTime : Nat)
    (fres ares : List ℚ) (calS capData : Nat → List (List Cq)) (ampScale : Nat → ℚ)
    (zs : List (List Cq))
    (h : (CRS.capture_noise fullScale t offsOf dirExists firStage noiseTime fres ares
      calS capData ampScale).result = .ok zs) :
    dirExists = false ∧ t ≠ [] ∧
      (CRS.capture_noise fullScale t offsOf dirExists firStage noiseTime fres ares
          calS capData ampScale).cmds
        = Cmd.setFirStage firStage :: (CRS.write_tones fullScale t offsOf fres ares).cmds
            ++ [Cmd.waitSeconds 1]
            ++ ((t.map Prod.fst).map (fun m =>
                [Cmd.setRouting m true, Cmd.getSamples m 20, Cmd.setRouting m false])).flatten
            ++ [Cmd.waitSeconds (1 / 10), Cmd.launchCapture (numSamps firStage noiseTime),
                Cmd.waitSeconds ((noiseTime : ℚ) + 20), Cmd.setFirStage 6]
            ++ (t.map Prod.fst).map Cmd.readCaptureData := by
  cases dirExists with
  | true => simp [CRS.capture_noise] at h
  | false =>
    refine ⟨rfl, ?_, ?_⟩
    · rcases hres : (CRS.write_tones fullScale t offsOf fres ares).result with err | u
      · match t with
        | [] => simp [CRS.capture_noise, hres] at h
        | e :: rest => intro hc; cases hc
      · match t with
        | [] =>
          exfalso
          have : (CRS.write_tones fullScale ([] : List NcoEntry) offsOf fres ares).result
              = .error .ncoNotSet := rfl
          rw [this] at hres
          cases hres
        | e :: rest => intro hc; cases hc
    · rcases hres : (CRS.write_tones fullScale t offsOf fres ares).result with err | u
      · match t with
        | [] => simp [CRS.capture_noise, hres] at h
        | e :: rest => simp [CRS.capture_noise, hres] at h
      · match t with
        | [] =>
          exfalso
          have : (CRS.write_tones fullScale ([] : List NcoEntry) offsOf fres ares).result
              = .error .ncoNotSet := rfl
          rw [this] at hres
          cases hres
        | e :: rest =>
          simp only [CRS.capture_noise, Bool.false_eq_true, if_false, hres]

/-- The FIR stage left behind by a capture-shaped trace is 6: the trailing
FIR-stage write of 6 wins over the initial one, and the capture reads after
it never touch the FIR stage. -/
theorem firAfter_capture_shape (s fir : Nat) (W C : List Cmd) (q1 q2 q3 : ℚ) (n : Nat)
    (ks : List Nat) :
    firAfter s (Cmd.setFirStage fir :: W ++ [Cmd.waitSeconds q1] ++ C
      ++ [Cmd.waitSeconds q2, Cmd.launchCapture n, Cmd.waitSeconds q3, Cmd.setFirStage 6]
      ++ ks.map Cmd.readCaptureData) = 6 := by
  have hpeel : firAfter s (Cmd.setFirStage fir :: W ++ [Cmd.waitSeconds q1] ++ C
      ++ [Cmd.waitSeconds q2, Cmd.launchCapture n, Cmd.waitSeconds q3, Cmd.setFirStage 6]
      ++ ks.map Cmd.readCaptureData)
      = firAfter fir (W ++ [Cmd.waitSeconds q1] ++ C
        ++ [Cmd.waitSeconds q2, Cmd.launchCapture n, Cmd.waitSeconds q3, Cmd.setFirStage 6]
        ++ ks.map Cmd.readCaptureData) := rfl
  rw [hpeel, firAfter_append, firAfter_append, firAfter_append, firAfter_append]
  have hmid : ∀ x, firAfter x [Cmd.waitSeconds q2, Cmd.launchCapture n, Cmd.waitSeconds q3,
      Cmd.setFirStage 6] = 6 := fun x => rfl
  rw [hmid]
  exact firAfter_of_no_setFir 6 _ (no_setFir_map_read ks)

theorem mem_idxMap_strong {f : Nat → α → β} {b : β} :
    ∀ {i : Nat} {l : List α}, b ∈ idxMap f i l → ∃ j a, a ∈ l ∧ b = f j a := by
  intro i l
  induction l generalizing i with
  | nil => intro h; simp [idxMap] at h
  | cons x t ih =>
    intro h
    simp only [idxMap, List.mem_cons] at h
    rcases h with h | h
    · exact ⟨i, x, List.mem_cons_self x t, h⟩
    · obtain ⟨j, a, ha, hb⟩ := ih h
      exact ⟨j, a, List.mem_cons_of_mem x ha, hb⟩

theorem foldl_min_le_init (x : Nat) (l : List Nat) : l.foldl min x ≤ x := by
  induction l generalizing x with
  | nil => exact le_refl x
  | cons a t ih => exact le_trans (ih (min x a)) (min_le_left x a)

theorem foldl_min_le_mem (x : Nat) (l : List Nat) (a : Nat) (ha : a ∈ l) :
    l.foldl min x ≤ a := by
  induction l generalizing x with
  | nil => cases ha
  | cons b t ih =>
    rcases List.mem_cons.mp ha with rfl | hm
    · exact le_trans (foldl_min_le_init (min x a) t) (min_le_right x a)
    · exact ih (min x b) hm

/-- `data_len` is at most every channel's length, so the truncation is
well-defined on every channel. -/
theorem truncLen_le (zs : List (List Cq)) : ∀ r ∈ zs, truncLen zs ≤ r.length := by
  intro r hr
  cases zs with
  | nil => cases hr
  | cons r0 rs =>
    rcases List.mem_cons.mp hr with rfl | hm
    · exact foldl_min_le_init r.length (rs.map List.length)
    · exact foldl_min_le_mem r0.length (rs.map List.length) r.length
        (List.mem_map.mpr ⟨r, hm, rfl⟩)

/-- On success, the value `CRS.capture_noise` returns is exactly the merged
timestreams truncated to the shortest channel and rescaled, and its warning
list holds exactly the FIR-stage warning and the tone-write warnings —
nothing records the length mismatch. -/
theorem capture_noise_success_value (fullScale : ℚ) (e : NcoEntry) (rest : List NcoEntry)
    (offsOf : Nat → List ℚ) (dirExists : Bool) (firStage noiseTime : Nat)
    (fres ares : List ℚ) (calS capData : Nat → List (List Cq)) (ampScale : Nat → ℚ)
    (zs : List (List Cq))
    (h : (CRS.capture_noise fullScale (e :: rest) offsOf dirExists firStage noiseTime
      fres ares calS capData ampScale).result = .ok zs) :
    zs = idxMap (fun i r => r.map (Cq.smul (ampScale i))) 0
        (truncateRows (noiseAssembled e rest fres ares capData calS)) ∧
      (CRS.capture_noise fullScale (e :: rest) offsOf dirExists firStage noiseTime fres
          ares calS capData ampScale).warns
        = (if firStage ≤ 4 then [Warn.lowFirStage] else [])
          ++ (CRS.write_tones fullScale (e :: rest) offsOf fres ares).warns := by
  cases dirExists with
  | true => simp [CRS.capture_noise] at h
  | false =>
    rcases hres : (CRS.write_tones fullScale (e :: rest) offsOf fres ares).result
        with err | u
    · simp [CRS.capture_noise, hres] at h
    · constructor
      · have h2 := h
        simp only [CRS.capture_noise, Bool.false_eq_true, if_false, hres,
          Except.ok.injEq] at h2
        exact h2.symm
      · simp only [CRS.capture_noise, Bool.false_eq_true, if_false, hres]

/-- C7 (amended): when the per-module reassembled noise timestreams have
unequal lengths, `capture_noise` truncates every channel to the shortest
length — each returned row has exactly the common minimum length — but the
mismatch is *not* surfaced to the caller: the returned value is the silent
truncation, and the warning list carries only the FIR-stage and tone-write
warnings, independent of any mismatch. -/
theorem C7_truncation_silent (fullScale : ℚ) (e : NcoEntry) (rest : List NcoEntry)
    (offsOf : Nat → List ℚ) (dirExists : Bool) (firStage noiseTime : Nat)
    (fres ares : List ℚ) (calS capData : Nat → List (List Cq)) (ampScale : Nat → ℚ)
    (zs : List (List Cq))
    (h : (CRS.capture_noise fullScale (e :: rest) offsOf dirExists firStage noiseTime
      fres ares calS capData ampScale).result = .ok zs) :
    zs = idxMap (fun i r => r.map (Cq.smul (ampScale i))) 0
        (truncateRows (noiseAssembled e rest fres ares capData calS)) ∧
      (∀ row ∈ zs, row.length = truncLen (noiseAssembled e rest fres ares capData calS)) ∧
      (CRS.capture_noise fullScale (e :: rest) offsOf dirExists firStage noiseTime fres
          ares calS capData ampScale).warns
        = (if firStage ≤ 4 then [Warn.lowFirStage] else [])
          ++ (CRS.write_tones fullScale (e :: rest) offsOf fres ares).warns := by
  obtain ⟨hz, hw⟩ := capture_noise_success_value fullScale e rest offsOf dirExists firStage
    noiseTime fres ares calS capData ampScale zs h
  refine ⟨hz, ?_, hw⟩
  intro row hrow
  rw [hz] at hrow
  obtain ⟨j, a, ha, rfl⟩ := mem_idxMap_strong hrow
  obtain ⟨r, hr, rfl⟩ := List.mem_map.mp ha
  rw [List.length_map, List.length_take]
  exact min_eq_left (truncLen_le _ r hr)

theorem cq_div_one (z : Cq) : Cq.div z (Cq.mk 1 0) = z := by
  cases z
  simp [Cq.div, Cq.normSq]

theorem cq_smul_one (z : Cq) : Cq.smul 1 z = z := by
  cases z
  simp [Cq.smul]

theorem cqMean_single (z : Cq) : cqMean [z] = z := by
  cases z
  simp [cqMean]

theorem map_cq_smul_one (d : List Cq) : d.map (Cq.smul 1) = d := by
  have h : Cq.smul 1 = id := funext fun z => cq_smul_one z
  rw [h, List.map_id]

/-- Concrete two-module noise capture with one tone per module: module 1
(NCO 0) holds channel 0 at 0 Hz, module 2 (NCO 1000) holds channel 1 at
1000 Hz; the parser returns timestream `d1` for module 1 and `d2` for
module 2, the loopback reference is 1, and no rescaling applies.  The call
succeeds, both channels are truncated to the shorter length, and no warning
is emitted. -/
theorem capture_noise_eval_pair (d1 d2 : List Cq) :
    (CRS.capture_noise 0 [(1, 0), (2, 1000)] (fun _ => []) false 6 0 [0, 1000] [0, 0]
        (fun _ => [[Cq.mk 1 0]]) (fun m => if m = 1 then [d1] else [d2])
        (fun _ => 1)).result
      = .ok [d1.take (min d1.length d2.length), d2.take (min d1.length d2.length)] ∧
    (CRS.capture_noise 0 [(1, 0), (2, 1000)] (fun _ => []) false 6 0 [0, 1000] [0, 0]
        (fun _ => [[Cq.mk 1 0]]) (fun m => if m = 1 then [d1] else [d2])
        (fun _ => 1)).warns = [] := by
  have ha0 : assignTone (1, (0 : ℚ)) [(2, 1000)] 0 = 1 := by
    simp only [assignTone, assignToneEntry, argminBy, List.foldl, toneKey]
    rw [if_neg (by norm_num)]
  have ha1 : assignTone (1, (0 : ℚ)) [(2, 1000)] 1000 = 2 := by
    simp only [assignTone, assignToneEntry, argminBy, List.foldl, toneKey]
    rw [if_pos (by norm_num)]
  have hchix1 : wtChIxDict (1, 0) [(2, 1000)] [0, 1000] [0, 0] 1 = [0] := by
    simp [wtChIxDict, chIxOf, wtAssign, List.range_succ, ha0, ha1]
  have hchix2 : wtChIxDict (1, 0) [(2, 1000)] [0, 1000] [0, 0] 2 = [1] := by
    simp [wtChIxDict, chIxOf, wtAssign, List.range_succ, ha0, ha1]
  have hfres1 : wtFresDict (1, 0) [(2, 1000)] [0, 1000] [0, 0] 1 = [0] := by
    simp [wtFresDict, hchix1]
  have hfres2 : wtFresDict (1, 0) [(2, 1000)] [0, 1000] [0, 0] 2 = [1000] := by
    simp [wtFresDict, hchix2]
  have hares1 : wtAresDict (1, 0) [(2, 1000)] [0, 1000] [0, 0] 1 = [0] := by
    simp [wtAresDict, hchix1]
  have hares2 : wtAresDict (1, 0) [(2, 1000)] [0, 1000] [0, 0] 2 = [0] := by
    simp [wtAresDict, hchix2]
  have hchk : (([(1, (0 : ℚ)), (2, 1000)]).any (fun p =>
      (wtFresDict (1, 0) [(2, 1000)] [0, 1000] [0, 0] p.1).any
        (fun fr => decide (bandwidth < |fr - p.2|)))) = false := by
    simp only [List.any_cons, List.any_nil, hfres1, hfres2]
    norm_num [bandwidth]
  have hm1 : ReadoutModule.write_tones 0 1 0 [] [0] [0]
      = ⟨Cmd.clearChannels 1 :: batchTones 1 0 (perturbFres [] [0]) [0], [], .ok ()⟩ := by
    unfold ReadoutModule.write_tones
    rw [if_neg (by norm_num)]
    norm_num
  have hm2 : ReadoutModule.write_tones 0 2 1000 [] [1000] [0]
      = ⟨Cmd.clearChannels 2 :: batchTones 2 1000 (perturbFres [] [1000]) [0], [], .ok ()⟩ := by
    unfold ReadoutModule.write_tones
    rw [if_neg (by norm_num)]
    norm_num
  have hwtres : (CRS.write_tones 0 [(1, 0), (2, 1000)] (fun _ => []) [0, 1000]
      [0, 0]).result = .ok () := by
    simp only [CRS.write_tones]
    rw [if_neg (by rw [hchk]; exact Bool.false_ne_true)]
    simp only [List.map_cons, List.map_nil, hfres1, hfres2, hares1, hares2, hm1, hm2,
      runModules, Except.map]
  have hwtwarns : (CRS.write_tones 0 [(1, 0), (2, 1000)] (fun _ => []) [0, 1000]
      [0, 0]).warns = [] := by
    simp only [CRS.write_tones]
    rw [if_neg (by rw [hchk]; exact Bool.false_ne_true)]
    simp only [List.map_cons, List.map_nil, hfres1, hfres2, hares1, hares2, hm1, hm2,
      runModules, Except.map, List.append_nil]
  have hzc1 : noiseZcalDict (1, 0) [(2, 1000)] [0, 1000] [0, 0]
      (fun _ => [[Cq.mk 1 0]]) 1 = [Cq.mk 1 0] := by
    unfold noiseZcalDict
    rw [hfres1]
    simp [cqMean_single]
  have hzc2 : noiseZcalDict (1, 0) [(2, 1000)] [0, 1000] [0, 0]
      (fun _ => [[Cq.mk 1 0]]) 2 = [Cq.mk 1 0] := by
    unfold noiseZcalDict
    rw [hfres2]
    simp [cqMean_single]
  have hrows1 : noiseModuleRows (1, 0) [(2, 1000)] [0, 1000] [0, 0]
      (fun m => if m = 1 then [d1] else [d2]) (fun _ => [[Cq.mk 1 0]]) 1 = [d1] := by
    unfold noiseModuleRows
    rw [hchix1, hzc1, hfres1]
    simp [List.range_succ, remove_internal_phaseshift, cq_div_one]
  have hrows2 : noiseModuleRows (1, 0) [(2, 1000)] [0, 1000] [0, 0]
      (fun m => if m = 1 then [d1] else [d2]) (fun _ => [[Cq.mk 1 0]]) 2 = [d2] := by
    unfold noiseModuleRows
    rw [hchix2, hzc2, hfres2]
    simp [List.range_succ, remove_internal_phaseshift, cq_div_one]
  have hasm : noiseAssembled (1, 0) [(2, 1000)] [0, 1000] [0, 0]
      (fun m => if m = 1 then [d1] else [d2]) (fun _ => [[Cq.mk 1 0]]) = [d1, d2] := by
    unfold noiseAssembled
    simp only [List.map_cons, List.map_nil, List.length_cons, List.length_nil]
    simp [mergeRows, List.range_succ, find_key_and_index, posOf, hchix1, hchix2,
      hrows1, hrows2]
  have htr : truncateRows [d1, d2]
      = [d1.take (min d1.length d2.length), d2.take (min d1.length d2.length)] := by
    simp [truncateRows, truncLen, minLenNat]
  constructor
  · simp only [CRS.capture_noise, Bool.false_eq_true, if_false, hwtres]
    rw [hasm, htr]
    simp [idxMap, map_cq_smul_one]
  · simp only [CRS.capture_noise, Bool.false_eq_true, if_false, hwtres, hwtwarns]
    norm_num
/-- C7 (counterexample): two modules return noise timestreams of lengths
1000 and 998; the merged result is truncated to 998 samples per channel, but
the warning list is empty — the claimed mismatch annotation does not exist
anywhere in the result, so the claim that the mismatch is surfaced to the
caller is false at this input. -/
theorem C7_counterexample :
    (CRS.capture_noise 0 [(1, 0), (2, 1000)] (fun _ => []) false 6 0 [0, 1000] [0, 0]
        (fun _ => [[Cq.mk 1 0]])
        (fun m => if m = 1 then [List.replicate 1000 (Cq.mk 1 0)]
          else [List.replicate 998 (Cq.mk 1 0)]) (fun _ => 1)).result
      = .ok [List.replicate 998 (Cq.mk 1 0), List.replicate 998 (Cq.mk 1 0)] ∧
    (CRS.capture_noise 0 [(1, 0), (2, 1000)] (fun _ => []) false 6 0 [0, 1000] [0, 0]
        (fun _ => [[Cq.mk 1 0]])
        (fun m => if m = 1 then [List.replicate 1000 (Cq.mk 1 0)]
          else [List.replicate 998 (Cq.mk 1 0)]) (fun _ => 1)).warns = [] := by
  obtain ⟨h1, h2⟩ := capture_noise_eval_pair (List.replicate 1000 (Cq.mk 1 0))
    (List.replicate 998 (Cq.mk 1 0))
  refine ⟨?_, h2⟩
  rw [h1]
  have h998 : min (List.replicate 1000 (Cq.mk 1 0)).length
      (List.replicate 998 (Cq.mk 1 0)).length = 998 := by
    simp only [List.length_replicate]
    omega
  rw [h998, List.take_replicate, List.take_replicate]
  have ha : min 998 1000 = 998 := by omega
  have hb : min 998 998 = 998 := by omega
  rw [ha, hb]

theorem C7_truncation_witness :
    [[Cq.mk 1 0, Cq.mk 1 0], [Cq.mk 1 0, Cq.mk 1 0]]
        = idxMap (fun i r => r.map (Cq.smul 1)) 0
          (truncateRows (noiseAssembled (1, 0) [(2, 1000)] [0, 1000] [0, 0]
            (fun m => if m = 1 then [[Cq.mk 1 0, Cq.mk 1 0, Cq.mk 1 0]]
              else [[Cq.mk 1 0, Cq.mk 1 0]]) (fun _ => [[Cq.mk 1 0]]))) ∧
      (∀ row ∈ [[Cq.mk 1 0, Cq.mk 1 0], [Cq.mk 1 0, Cq.mk 1 0]],
        row.length = truncLen (noiseAssembled (1, 0) [(2, 1000)] [0, 1000] [0, 0]
          (fun m => if m = 1 then [[Cq.mk 1 0, Cq.mk 1 0, Cq.mk 1 0]]
            else [[Cq.mk 1 0, Cq.mk 1 0]]) (fun _ => [[Cq.mk 1 0]]))) ∧
      (CRS.capture_noise 0 [(1, 0), (2, 1000)] (fun _ => []) false 6 0 [0, 1000] [0, 0]
          (fun _ => [[Cq.mk 1 0]])
          (fun m => if m = 1 then [[Cq.mk 1 0, Cq.mk 1 0, Cq.mk 1 0]]
            else [[Cq.mk 1 0, Cq.mk 1 0]]) (fun _ => 1)).warns
        = (if 6 ≤ 4 then [Warn.lowFirStage] else [])
          ++ (CRS.write_tones 0 [(1, 0), (2, 1000)] (fun _ => []) [0, 1000]
            [0, 0]).warns :=
  C7_truncation_silent 0 (1, 0) [(2, 1000)] (fun _ => []) false 6 0 [0, 1000] [0, 0]
    (fun _ => [[Cq.mk 1 0]])
    (fun m => if m = 1 then [[Cq.mk 1 0, Cq.mk 1 0, Cq.mk 1 0]]
      else [[Cq.mk 1 0, Cq.mk 1 0]]) (fun _ => 1)
    [[Cq.mk 1 0, Cq.mk 1 0], [Cq.mk 1 0, Cq.mk 1 0]]
    ((capture_noise_eval_pair [Cq.mk 1 0, Cq.mk 1 0, Cq.mk 1 0] [Cq.mk 1 0, Cq.mk 1 0]).1)

theorem assignTone_mem_keys (e : NcoEntry) (rest : List NcoEntry) (fr : ℚ) :
    assignTone e rest fr ∈ (e :: rest).map Prod.fst := by
  obtain ⟨hmem, _⟩ := argminBy_spec (toneKey fr) e rest
  unfold assignTone assignToneEntry
  rcases hmem with h | h
  · rw [h]; exact List.mem_map.mpr ⟨e, List.mem_cons_self e rest, rfl⟩
  · exact List.mem_map.mpr ⟨argminBy (toneKey fr) e rest, List.mem_cons_of_mem e h, rfl⟩

theorem assignSweep_mem_keys (e : NcoEntry) (rest : List NcoEntry) (freqs : List ℚ) :
    assignSweep e rest freqs ∈ (e :: rest).map Prod.fst := by
  obtain ⟨hmem, _⟩ := argminBy_spec (sweepKey freqs) e rest
  unfold assignSweep assignSweepEntry
  rcases hmem with h | h
  · rw [h]; exact List.mem_map.mpr ⟨e, List.mem_cons_self e rest, rfl⟩
  · exact List.mem_map.mpr ⟨argminBy (sweepKey freqs) e rest, List.mem_cons_of_mem e h, rfl⟩

/-- C2: for distinct configured modules, the per-module partition recorded in
`ch_ix_dict` is a bijection onto the original channel indices `0..N-1` (the
concatenated per-module lists are a permutation of `range N`), and merging
per-module results back through this mapping restores the caller's exact
channel order and count: when module `m`'s result row for its `j`-th
recorded channel is the per-channel result of that original channel, the
merged output lists exactly the per-channel results of channels `0..N-1` in
order.  This holds for both the `write_tones`/`capture_noise` partition and
the `sweep` partition. -/
theorem C2_partition_bijection_and_merge {β γ : Type} (e : NcoEntry) (rest : List NcoEntry)
    (fres ares : List ℚ) (rows : List (List ℚ)) (ares2 : List ℚ)
    (F : Nat → β) (G : Nat → γ) (d1 : β) (d2 : γ)
    (hnd : ((e :: rest).map Prod.fst).Nodup) :
    ((((e :: rest).map Prod.fst).map (wtChIxDict e rest fres ares)).flatten.Perm
      (List.range (min fres.length ares.length))) ∧
    (mergeRows ((e :: rest).map Prod.fst) (wtChIxDict e rest fres ares)
        (fun m => (wtChIxDict e rest fres ares m).map F) (min fres.length ares.length) d1
      = (List.range (min fres.length ares.length)).map F) ∧
    ((((e :: rest).map Prod.fst).map (swChIxDict e rest rows ares2)).flatten.Perm
      (List.range (min rows.length ares2.length))) ∧
    (mergeRows ((e :: rest).map Prod.fst) (swChIxDict e rest rows ares2)
        (fun m => (swChIxDict e rest rows ares2 m).map G) (min rows.length ares2.length) d2
      = (List.range (min rows.length ares2.length)).map G) := by
  have hw : wtChIxDict e rest fres ares
      = chIxOf (wtAssign e rest fres) (min fres.length ares.length) := rfl
  have hsw : swChIxDict e rest rows ares2
      = chIxOf (swAssign e rest rows) (min rows.length ares2.length) := rfl
  have hcov1 : ∀ i, i < min fres.length ares.length →
      wtAssign e rest fres i ∈ (e :: rest).map Prod.fst :=
    fun i _ => assignTone_mem_keys e rest _
  have hcov2 : ∀ i, i < min rows.length ares2.length →
      swAssign e rest rows i ∈ (e :: rest).map Prod.fst :=
    fun i _ => assignSweep_mem_keys e rest _
  refine ⟨?_, ?_, ?_, ?_⟩
  · rw [hw]; exact chIx_flatten_perm _ _ _ hnd hcov1
  · rw [hw]; exact mergeRows_restores_order _ _ _ F d1 hcov1
  · rw [hsw]; exact chIx_flatten_perm _ _ _ hnd hcov2
  · rw [hsw]; exact mergeRows_restores_order _ _ _ G d2 hcov2

theorem C2_partition_bijection_witness :
    ((([(1, (0 : ℚ)), (2, 1000)].map Prod.fst).map
        (wtChIxDict (1, 0) [(2, 1000)] [0, 1000] [0, 0])).flatten.Perm
      (List.range (min ([0, 1000] : List ℚ).length ([0, 0] : List ℚ).length))) ∧
    (mergeRows ([(1, (0 : ℚ)), (2, 1000)].map Prod.fst)
        (wtChIxDict (1, 0) [(2, 1000)] [0, 1000] [0, 0])
        (fun m => (wtChIxDict (1, 0) [(2, 1000)] [0, 1000] [0, 0] m).map (fun i => i))
        (min ([0, 1000] : List ℚ).length ([0, 0] : List ℚ).length) 0
      = (List.range (min ([0, 1000] : List ℚ).length ([0, 0] : List ℚ).length)).map
          (fun i => i)) ∧
    ((([(1, (0 : ℚ)), (2, 1000)].map Prod.fst).map
        (swChIxDict (1, 0) [(2, 1000)] [[0], [1000]] [0, 0])).flatten.Perm
      (List.range (min ([[0], [1000]] : List (List ℚ)).length ([0, 0] : List ℚ).length))) ∧
    (mergeRows ([(1, (0 : ℚ)), (2, 1000)].map Prod.fst)
        (swChIxDict (1, 0) [(2, 1000)] [[0], [1000]] [0, 0])
        (fun m => (swChIxDict (1, 0) [(2, 1000)] [[0], [1000]] [0, 0] m).map (fun i => i))
        (min ([[0], [1000]] : List (List ℚ)).length ([0, 0] : List ℚ).length) 0
      = (List.range
          (min ([[0], [1000]] : List (List ℚ)).length ([0, 0] : List ℚ).length)).map
          (fun i => i)) :=
  C2_partition_bijection_and_merge (1, 0) [(2, 1000)] [0, 1000] [0, 0] [[0], [1000]] [0, 0]
    (fun i => i) (fun i => i) 0 0 (by simp)

/-- C3: when any requested frequency lies more than 325 MHz from the NCO of
its assigned module, `CRS.write_tones` and `CRS.sweep` raise the validation
error before issuing any hardware command (the command trace is empty); in
particular requesting 900e6 with NCO table `{1: 500e6}` fails this way,
since the offset 400e6 exceeds 325e6. -/
theorem C3_bandwidth_validation (fullScale vpr : ℚ) (e : NcoEntry) (rest : List NcoEntry)
    (offsOf offsWOf : Nat → List ℚ) (offsMOf : Nat → List (List ℚ))
    (fres ares : List ℚ) (rows : List (List ℚ)) (ares2 : List ℚ)
    (orc : SweepOracle) (nsamps : Nat) (ampScale : Nat → ℚ)
    (hw : ∃ i < min fres.length ares.length,
      bandwidth < |fres.getD i 0 - (assignToneEntry e rest (fres.getD i 0)).2|)
    (hs : ∃ i < min rows.length ares2.length, ∃ fr ∈ rows.getD i [],
      bandwidth < |fr - (assignSweepEntry e rest (rows.getD i [])).2|) :
    ((CRS.write_tones fullScale (e :: rest) offsOf fres ares).result = .error .freqOutOfRange ∧
      (CRS.write_tones fullScale (e :: rest) offsOf fres ares).cmds = []) ∧
    ((CRS.sweep fullScale vpr (e :: rest) offsMOf offsWOf rows ares2 orc nsamps ampScale).result
        = .error .freqOutOfRange ∧
      (CRS.sweep fullScale vpr (e :: rest) offsMOf offsWOf rows ares2 orc nsamps ampScale).cmds
        = []) ∧
    ((CRS.write_tones 1 [(1, 500000000)] (fun _ => []) [900000000] [0]).result
        = .error .freqOutOfRange ∧
      (CRS.write_tones 1 [(1, 500000000)] (fun _ => []) [900000000] [0]).cmds = []) := by
  have h1 := wt_check_true e rest fres ares hw
  have h2 := sw_check_true e rest rows ares2 hs
  have h3 := wt_check_true (1, (500000000 : ℚ)) [] [900000000] [0]
    ⟨0, by norm_num, by norm_num [assignToneEntry, argminBy, bandwidth]⟩
  refine ⟨?_, ?_, ?_⟩
  · constructor <;> simp [CRS.write_tones, h1]
  · constructor <;> simp [CRS.sweep, h2]
  · constructor <;> simp [CRS.write_tones, h3]

theorem C3_bandwidth_validation_witness :
    ((CRS.write_tones 1 [(1, 500000000)] (fun _ => []) [900000000] [0]).result
        = .error .freqOutOfRange ∧
      (CRS.write_tones 1 [(1, 500000000)] (fun _ => []) [900000000] [0]).cmds = []) ∧
    ((CRS.sweep 1 1 [(1, 500000000)] (fun _ => []) (fun _ => []) [[900000000]] [0]
        ⟨fun _ _ => [], fun _ _ => []⟩ 10 (fun _ => 1)).result = .error .freqOutOfRange ∧
      (CRS.sweep 1 1 [(1, 500000000)] (fun _ => []) (fun _ => []) [[900000000]] [0]
        ⟨fun _ _ => [], fun _ _ => []⟩ 10 (fun _ => 1)).cmds = []) ∧
    ((CRS.write_tones 1 [(1, 500000000)] (fun _ => []) [900000000] [0]).result
        = .error .freqOutOfRange ∧
      (CRS.write_tones 1 [(1, 500000000)] (fun _ => []) [900000000] [0]).cmds = []) :=
  C3_bandwidth_validation 1 1 (1, 500000000) [] (fun _ => []) (fun _ => []) (fun _ => [])
    [900000000] [0] [[900000000]] [0] ⟨fun _ _ => [], fun _ _ => []⟩ 10 (fun _ => 1)
    ⟨0, by norm_num, by norm_num [assignToneEntry, argminBy, bandwidth]⟩
    ⟨0, by norm_num, 900000000, by simp,
      by norm_num [assignSweepEntry, argminBy, bandwidth]⟩

/-- C5: applying `remove_internal_phaseshift` and then its inverse
reconstructs the original raw sample exactly (hence within any floating
point tolerance) for every frequency, raw sample, and non-zero loopback
reference. -/
theorem C5_remove_internal_phaseshift_roundtrip (f : ℚ) (z zcal : Cq)
    (h : zcal ≠ Cq.zero) :
    apply_internal_phaseshift f (remove_internal_phaseshift f z zcal) zcal = z := by
  have hn := cq_normSq_ne_zero h
  cases z with
  | mk a b =>
    cases zcal with
    | mk c d =>
      have hn2 : c * c + d * d ≠ 0 := hn
      simp only [apply_internal_phaseshift, remove_internal_phaseshift, Cq.div, Cq.mul,
        Cq.normSq] at hn2 ⊢
      congr 1 <;> field_simp <;> ring

theorem C5_roundtrip_witness :
    apply_internal_phaseshift 100 (remove_internal_phaseshift 100 (Cq.mk 3 4) (Cq.mk 1 2))
        (Cq.mk 1 2) = Cq.mk 3 4 :=
  C5_remove_internal_phaseshift_roundtrip 100 (Cq.mk 3 4) (Cq.mk 1 2) (by decide)

/-- C6 (amended): the boundary-avoidance step of `write_tones` / `sweep`
nudges exactly the frequencies whose residue above the previous bin multiple
is below the 101 Hz threshold, pushing them up by the threshold, so that
after the perturbation step every written frequency lies at least the
threshold *above* the previous bin multiple.  (Frequencies within the
threshold *below* a bin multiple are not nudged — see the
counterexample.) -/
theorem C6_boundary_nudge (offs fres : List ℚ) (g : ℚ) (hg : g ∈ perturbFres offs fres) :
    boundaryThreshold ≤ qmod g binWidth ∧
      (∀ f : ℚ, qmod f binWidth < boundaryThreshold → nudgeFreq f = f + boundaryThreshold) ∧
      ∀ (offsM rowsM : List (List ℚ)) (row : List ℚ) (g2 : ℚ),
        row ∈ perturbMatrix offsM rowsM → g2 ∈ row →
          boundaryThreshold ≤ qmod g2 binWidth := by
  refine ⟨?_, ?_, ?_⟩
  · obtain ⟨j, a, rfl⟩ := mem_idxMap hg
    exact nudgeFreq_residue_ge _
  · intro f hf
    unfold nudgeFreq
    simp [hf]
  · intro offsM rowsM row g2 hrow hg2
    obtain ⟨j, a, rfl⟩ := mem_idxMap hrow
    obtain ⟨j2, a2, rfl⟩ := mem_idxMap hg2
    exact nudgeFreq_residue_ge _

theorem C6_boundary_nudge_witness :
    boundaryThreshold ≤ qmod 101 binWidth ∧
      (∀ f : ℚ, qmod f binWidth < boundaryThreshold → nudgeFreq f = f + boundaryThreshold) ∧
      ∀ (offsM rowsM : List (List ℚ)) (row : List ℚ) (g2 : ℚ),
        row ∈ perturbMatrix offsM rowsM → g2 ∈ row →
          boundaryThreshold ≤ qmod g2 binWidth :=
  C6_boundary_nudge [0] [0] 101
    (by norm_num [perturbFres, idxMap, nudgeFreq, qmod, binWidth, comb_sampling_freq,
      boundaryThreshold])

/-- C6 (counterexample): a requested frequency 50 Hz *below* a bin multiple
(`binWidth - 50`, with zero random offset) is within the ~101 Hz threshold
of that multiple, yet the perturbation step leaves it unchanged: after the
step it still lies within the threshold of a bin multiple, contradicting
the claim that no written frequency does. -/
theorem C6_counterexample :
    perturbFres [0] [binWidth - 50] = [binWidth - 50] ∧
      |(binWidth - 50) - 1 * binWidth| < boundaryThreshold := by
  constructor
  · norm_num [perturbFres, idxMap, nudgeFreq, qmod, binWidth, comb_sampling_freq,
      boundaryThreshold]
  · norm_num [binWidth, comb_sampling_freq, boundaryThreshold]

/-- C4: the module-level `write_tones` macro succeeds whenever every
amplitude is at most the full-scale power, and fails with the
amplitude-exceeds-full-scale configuration error — with *no* hardware
command issued, neither the channel clear nor the batched tone writes —
whenever some amplitude strictly exceeds it. -/
theorem C4_write_tones_amplitude_check (fullScale : ℚ) (m : Nat) (nco : ℚ)
    (offs fres ares : List ℚ) :
    ((∀ a ∈ ares, a ≤ fullScale) →
      (ReadoutModule.write_tones fullScale m nco offs fres ares).result = .ok ()) ∧
    ((∃ a ∈ ares, fullScale < a) →
      (ReadoutModule.write_tones fullScale m nco offs fres ares).result
          = .error .amplitudeExceedsFullScale ∧
        (ReadoutModule.write_tones fullScale m nco offs fres ares).cmds = []) := by
  by_cases hb : ares.any (fun a => decide (fullScale < a)) = true
  · have hex : ∃ a ∈ ares, fullScale < a := by simpa using hb
    constructor
    · intro h
      obtain ⟨a, ha, hlt⟩ := hex
      exact absurd (h a ha) (not_le.mpr hlt)
    · intro _
      constructor <;> simp [ReadoutModule.write_tones, hb]
  · constructor
    · intro _
      simp [ReadoutModule.write_tones, hb]
    · intro hex
      exact absurd (by simpa using hex) hb

/-- C9: the module-level `write_tones` macro raises a fatal error when any
amplitude exceeds full scale; when all amplitudes are within full scale it
always succeeds, and the presence of low-power (< -60 dBm) tones can at most
add the non-fatal quantization warning. -/
theorem C9_low_power_warns_only (fullScale : ℚ) (m : Nat) (nco : ℚ)
    (offs fres ares : List ℚ) :
    ((∃ a ∈ ares, fullScale < a) →
      (ReadoutModule.write_tones fullScale m nco offs fres ares).result
          = .error .amplitudeExceedsFullScale) ∧
    ((∀ a ∈ ares, a ≤ fullScale) →
      (ReadoutModule.write_tones fullScale m nco offs fres ares).result = .ok () ∧
        ((ReadoutModule.write_tones fullScale m nco offs fres ares).warns = [] ∨
          (ReadoutModule.write_tones fullScale m nco offs fres ares).warns
            = [Warn.lowPowerTones])) := by
  by_cases hb : ares.any (fun a => decide (fullScale < a)) = true
  · have hex : ∃ a ∈ ares, fullScale < a := by simpa using hb
    constructor
    · intro _
      simp [ReadoutModule.write_tones, hb]
    · intro h
      obtain ⟨a, ha, hlt⟩ := hex
      exact absurd (h a ha) (not_le.mpr hlt)
  · constructor
    · intro hex
      exact absurd (by simpa using hex) hb
    · intro _
      refine ⟨by simp [ReadoutModule.write_tones, hb], ?_⟩
      by_cases hw : (ares.any (fun a => decide (a < -60)) && decide (ares.length < 100)) = true
      · right; simp [ReadoutModule.write_tones, hb, hw]
      · left
        simp only [ReadoutModule.write_tones, hb, if_false, Bool.not_eq_true] at hw ⊢
        simp [hw]

/-- C8: a noise capture whose parser output directory already exists fails
with the pre-existing-directory error before any hardware command, and the
external capture process is never launched; on a fresh directory, every
successful capture launches the process, blocks for the duration plus the
fixed margin, and then — before reading any capture output — writes FIR
stage 6 back, so the capture's decimation setting does not outlive the
call (the device is left at stage 6). -/
theorem C8_precapture_and_fir_restore (fullScale : ℚ) (t : List NcoEntry)
    (offsOf : Nat → List ℚ) (firStage noiseTime : Nat) (fres ares : List ℚ)
    (calS capData : Nat → List (List Cq)) (ampScale : Nat → ℚ) (s : Nat) :
    ((CRS.capture_noise fullScale t offsOf true firStage noiseTime fres ares calS capData
        ampScale).result = .error .fileExists ∧
      (CRS.capture_noise fullScale t offsOf true firStage noiseTime fres ares calS capData
        ampScale).cmds = [] ∧
      ∀ k, Cmd.launchCapture k ∉ (CRS.capture_noise fullScale t offsOf true firStage
        noiseTime fres ares calS capData ampScale).cmds) ∧
    ∀ zs, (CRS.capture_noise fullScale t offsOf false firStage noiseTime fres ares calS
        capData ampScale).result = .ok zs →
      ∃ pre, (CRS.capture_noise fullScale t offsOf false firStage noiseTime fres ares calS
            capData ampScale).cmds
          = pre ++ [Cmd.setFirStage 6] ++ (t.map Prod.fst).map Cmd.readCaptureData ∧
        Cmd.launchCapture (numSamps firStage noiseTime) ∈ pre ∧
        Cmd.waitSeconds ((noiseTime : ℚ) + 20) ∈ pre ∧
        firAfter s (CRS.capture_noise fullScale t offsOf false firStage noiseTime fres ares
          calS capData ampScale).cmds = 6 := by
  constructor
  · refine ⟨by simp [CRS.capture_noise], by simp [CRS.capture_noise], ?_⟩
    intro k
    simp [CRS.capture_noise]
  · intro zs h
    obtain ⟨-, -, hcmds⟩ := capture_noise_success_cmds fullScale t offsOf false firStage
      noiseTime fres ares calS capData ampScale zs h
    refine ⟨Cmd.setFirStage firStage :: (CRS.write_tones fullScale t offsOf fres ares).cmds
        ++ [Cmd.waitSeconds 1]
        ++ ((t.map Prod.fst).map (fun m =>
            [Cmd.setRouting m true, Cmd.getSamples m 20, Cmd.setRouting m false])).flatten
        ++ [Cmd.waitSeconds (1 / 10), Cmd.launchCapture (numSamps firStage noiseTime),
            Cmd.waitSeconds ((noiseTime : ℚ) + 20)], ?_, ?_, ?_, ?_⟩
    · rw [hcmds]
      simp [List.append_assoc]
    · simp
    · simp
    · rw [hcmds]
      exact firAfter_capture_shape s firStage _ _ 1 (1 / 10) ((noiseTime : ℚ) + 20)
        (numSamps firStage noiseTime) (t.map Prod.fst)

/-- C10: every sweep entry point — `sweep` itself and the three convenience
shapes `sweep_linear`, `sweep_qres`, `sweep_full` — unconditionally writes
FIR stage 6 as its first hardware command on every successful run, issues no
other FIR-stage command, and `capture_noise` restores stage 6 at the end; so
whatever stage `s` the device started in, after any successful sweep or
noise capture the device's FIR stage is 6. -/
theorem C10_decimation_always_six (fullScale vpr : ℚ) (t : List NcoEntry)
    (offsMOf : Nat → List (List ℚ)) (offsWOf offsOf : Nat → List ℚ)
    (rows : List (List ℚ)) (ares fres2 ares2 fres3 ares3 qres : List ℚ)
    (bw amplitude : ℚ) (npoints nsamps firStage noiseTime : Nat) (orc : SweepOracle)
    (dirExists : Bool) (fres4 ares4 : List ℚ) (calS capData : Nat → List (List Cq))
    (ampScale : Nat → ℚ) (s : Nat) :
    (∀ r, (CRS.sweep fullScale vpr t offsMOf offsWOf rows ares orc nsamps ampScale).result
        = .ok r →
      (CRS.sweep fullScale vpr t offsMOf offsWOf rows ares orc nsamps ampScale).cmds.head?
          = some (Cmd.setFirStage 6) ∧
        firAfter s (CRS.sweep fullScale vpr t offsMOf offsWOf rows ares orc nsamps
          ampScale).cmds = 6) ∧
    (∀ r, (CRS.sweep_linear fullScale vpr t offsMOf offsWOf fres2 ares2 bw npoints orc
        nsamps ampScale).result = .ok r →
      firAfter s (CRS.sweep_linear fullScale vpr t offsMOf offsWOf fres2 ares2 bw npoints
        orc nsamps ampScale).cmds = 6) ∧
    (∀ r, (CRS.sweep_qres fullScale vpr t offsMOf offsWOf fres3 ares3 qres npoints orc
        nsamps ampScale).result = .ok r →
      firAfter s (CRS.sweep_qres fullScale vpr t offsMOf offsWOf fres3 ares3 qres npoints
        orc nsamps ampScale).cmds = 6) ∧
    (∀ r, (CRS.sweep_full fullScale vpr t offsMOf offsWOf amplitude npoints orc nsamps
        ampScale).result = .ok r →
      firAfter s (CRS.sweep_full fullScale vpr t offsMOf offsWOf amplitude npoints orc
        nsamps ampScale).cmds = 6) ∧
    (∀ zs, (CRS.capture_noise fullScale t offsOf dirExists firStage noiseTime fres4 ares4
        calS capData ampScale).result = .ok zs →
      firAfter s (CRS.capture_noise fullScale t offsOf dirExists firStage noiseTime fres4
        ares4 calS capData ampScale).cmds = 6) := by
  have hfir : ∀ (rows2 : List (List ℚ)) (ares5 : List ℚ)
      (r : List (List ℚ) × List (List Cq)),
      (CRS.sweep fullScale vpr t offsMOf offsWOf rows2 ares5 orc nsamps ampScale).result
        = .ok r →
      (CRS.sweep fullScale vpr t offsMOf offsWOf rows2 ares5 orc nsamps
          ampScale).cmds.head? = some (Cmd.setFirStage 6) ∧
      firAfter s (CRS.sweep fullScale vpr t offsMOf offsWOf rows2 ares5 orc nsamps
        ampScale).cmds = 6 := by
    intro rows2 ares5 r h
    obtain ⟨tl, hcmds, hno⟩ := sweep_success_cmds fullScale vpr t offsMOf offsWOf rows2
      ares5 orc nsamps ampScale r h
    rw [hcmds]
    refine ⟨rfl, ?_⟩
    show firAfter 6 tl = 6
    exact firAfter_of_no_setFir 6 tl hno
  refine ⟨fun r h => hfir rows ares r h, ?_, ?_, ?_, ?_⟩
  · intro r h
    exact (hfir _ _ r h).2
  · intro r h
    exact (hfir _ _ r h).2
  · intro r h
    have hres : (CRS.sweep_linear fullScale vpr t offsMOf offsWOf (CRS.fullFres t
        (600000000 / 1024 + 200)) ((CRS.fullFres t (600000000 / 1024 + 200)).map
        (fun _ => amplitude)) (600000000 / 1024 + 200 - (600000000 / 1024 + 200) / npoints)
        npoints orc nsamps ampScale).result.map (fun r =>
          CRS.sortByFreq (r.1.flatten.zip r.2.flatten)) = .ok r := h
    rcases hres2 : (CRS.sweep_linear fullScale vpr t offsMOf offsWOf (CRS.fullFres t
        (600000000 / 1024 + 200)) ((CRS.fullFres t (600000000 / 1024 + 200)).map
        (fun _ => amplitude)) (600000000 / 1024 + 200 - (600000000 / 1024 + 200) / npoints)
        npoints orc nsamps ampScale).result with err | r0
    · rw [hres2] at hres
      cases hres
    · show firAfter s (CRS.sweep_linear fullScale vpr t offsMOf offsWOf (CRS.fullFres t
        (600000000 / 1024 + 200)) ((CRS.fullFres t (600000000 / 1024 + 200)).map
        (fun _ => amplitude)) (600000000 / 1024 + 200 - (600000000 / 1024 + 200) / npoints)
        npoints orc nsamps ampScale).cmds = 6
      exact (hfir _ _ r0 hres2).2
  · intro zs h
    obtain ⟨hd, -, hcmds⟩ := capture_noise_success_cmds fullScale t offsOf dirExists
      firStage noiseTime fres4 ares4 calS capData ampScale zs h
    subst hd
    rw [hcmds]
    exact firAfter_capture_shape s firStage _ _ 1 (1 / 10) ((noiseTime : ℚ) + 20)
      (numSamps firStage noiseTime) (t.map Prod.fst)

/-- C1: `CRS.write_tones` assigns each channel to an actual NCO-table entry
whose NCO has the minimum absolute offset from the channel's frequency, and
`CRS.sweep` assigns each channel to an entry minimizing the maximum absolute
offset over the extremes (`max` and `min`) of the channel's swept range; in
particular, with NCO table `{1: 500e6, 2: 1200e6}`, requesting channel 0 at
500.1e6 and channel 1 at 1200.2e6 records channel 0 in module 1's partition
and channel 1 in module 2's. -/
theorem C1_minimum_offset_assignment (e : NcoEntry) (rest : List NcoEntry) (fr f0 : ℚ)
    (fs : List ℚ) :
    (assignToneEntry e rest fr ∈ e :: rest ∧
      assignTone e rest fr = (assignToneEntry e rest fr).1 ∧
      ∀ p ∈ e :: rest, |(assignToneEntry e rest fr).2 - fr| ≤ |p.2 - fr|) ∧
    (assignSweepEntry e rest (f0 :: fs) ∈ e :: rest ∧
      assignSweep e rest (f0 :: fs) = (assignSweepEntry e rest (f0 :: fs)).1 ∧
      ∀ p ∈ e :: rest,
        max |(assignSweepEntry e rest (f0 :: fs)).2 - rowMax (f0 :: fs)|
            |(assignSweepEntry e rest (f0 :: fs)).2 - rowMin (f0 :: fs)|
          ≤ max |p.2 - rowMax (f0 :: fs)| |p.2 - rowMin (f0 :: fs)|) ∧
    (wtChIxDict (1, 500000000) [(2, 1200000000)] [500100000, 1200200000] [0, 0] 1 = [0] ∧
      wtChIxDict (1, 500000000) [(2, 1200000000)] [500100000, 1200200000] [0, 0] 2 = [1]) := by
  obtain ⟨hmem1, hmin1⟩ := argminBy_spec (toneKey fr) e rest
  obtain ⟨hmem2, hmin2⟩ := argminBy_spec (sweepKey (f0 :: fs)) e rest
  have ha0 : assignTone (1, (500000000 : ℚ)) [(2, 1200000000)] 500100000 = 1 := by
    simp only [assignTone, assignToneEntry, argminBy, List.foldl, toneKey]
    rw [if_neg (by norm_num)]
  have ha1 : assignTone (1, (500000000 : ℚ)) [(2, 1200000000)] 1200200000 = 2 := by
    simp only [assignTone, assignToneEntry, argminBy, List.foldl, toneKey]
    rw [if_pos (by norm_num)]
  refine ⟨⟨?_, rfl, ?_⟩, ⟨?_, rfl, ?_⟩, ?_, ?_⟩
  · rcases hmem1 with h | h
    · unfold assignToneEntry; rw [h]; exact List.mem_cons_self e rest
    · exact List.mem_cons_of_mem e h
  · intro p hp
    have := hmin1 p (List.mem_cons.mp hp)
    simpa [toneKey, assignToneEntry] using this
  · rcases hmem2 with h | h
    · unfold assignSweepEntry; rw [h]; exact List.mem_cons_self e rest
    · exact List.mem_cons_of_mem e h
  · intro p hp
    have := hmin2 p (List.mem_cons.mp hp)
    simpa [sweepKey, assignSweepEntry] using this
  · simp [wtChIxDict, chIxOf, wtAssign, List.range_succ, ha0, ha1]
  · simp [wtChIxDict, chIxOf, wtAssign, List.range_succ, ha0, ha1]


end Citkid
